import Mathlib

/-!
Verification development for the wdedup repository (external-memory
word deduplication: wprof / wmerge / wfindfirst over a write-ahead log).

Words are modelled as lists of byte values (`List Nat`, each < 256);
`std::string` comparison is `memcmp`-style lexicographic comparison on
unsigned bytes, modelled by `wordCmp`.
-/

namespace Wdedup

/-- Lexicographic three-way comparison of byte strings, as performed by
`std::string::compare` (unsigned bytes, shorter string first on ties). -/
def wordCmp : List Nat → List Nat → Ordering
  | [], [] => .eq
  | [], _ :: _ => .lt
  | _ :: _, [] => .gt
  | a :: l, b :: r =>
    if a < b then .lt
    else if b < a then .gt
    else wordCmp l r

theorem wordCmp_refl (w : List Nat) : wordCmp w w = .eq := by
  induction w with
  | nil => rfl
  | cons a l ih => simp [wordCmp, ih]

theorem wordCmp_eq_iff {x y : List Nat} : wordCmp x y = .eq ↔ x = y := by
  constructor
  · intro h
    induction x generalizing y with
    | nil => cases y with
      | nil => rfl
      | cons b r => simp [wordCmp] at h
    | cons a l ih =>
      cases y with
      | nil => simp [wordCmp] at h
      | cons b r =>
        simp only [wordCmp] at h
        split at h
        · exact absurd h (by simp)
        · split at h
          · exact absurd h (by simp)
          · have hab : a = b := by omega
            have := ih h
            simp [hab, this]
  · intro h; subst h; exact wordCmp_refl x

theorem wordCmp_gt_iff {x y : List Nat} : wordCmp x y = .gt ↔ wordCmp y x = .lt := by
  induction x generalizing y with
  | nil => cases y <;> simp [wordCmp]
  | cons a l ih =>
    cases y with
    | nil => simp [wordCmp]
    | cons b r =>
      simp only [wordCmp]
      rcases Nat.lt_trichotomy a b with h | h | h
      · simp [h, Nat.lt_asymm h]
      · subst h; simp [Nat.lt_irrefl, ih]
      · simp [h, Nat.lt_asymm h]

theorem wordCmp_lt_trans {x y z : List Nat}
    (hxy : wordCmp x y = .lt) (hyz : wordCmp y z = .lt) : wordCmp x z = .lt := by
  induction x generalizing y z with
  | nil =>
    cases y with
    | nil => simp [wordCmp] at hxy
    | cons b r =>
      cases z with
      | nil => simp [wordCmp] at hyz
      | cons c t => simp [wordCmp]
  | cons a l ih =>
    cases y with
    | nil => simp [wordCmp] at hxy
    | cons b r =>
      cases z with
      | nil => simp [wordCmp] at hyz
      | cons c t =>
        simp only [wordCmp] at hxy hyz ⊢
        rcases Nat.lt_trichotomy a b with hab | hab | hab
        · rcases Nat.lt_trichotomy b c with hbc | hbc | hbc
          · simp [Nat.lt_trans hab hbc]
          · subst hbc; simp [hab]
          · simp [hab, Nat.lt_asymm hab] at hxy
            simp [hbc, Nat.lt_asymm hbc] at hyz
        · subst hab
          rcases Nat.lt_trichotomy a c with hac | hac | hac
          · simp [hac]
          · subst hac
            simp [Nat.lt_irrefl] at hxy hyz ⊢
            exact ih hxy hyz
          · simp [Nat.lt_asymm hac, hac] at hyz
        · simp [hab, Nat.lt_asymm hab] at hxy

theorem wordCmp_cases (x y : List Nat) :
    wordCmp x y = .lt ∨ x = y ∨ wordCmp y x = .lt := by
  rcases h : wordCmp x y with _ | _ | _
  · exact Or.inl rfl
  · exact Or.inr (Or.inl (wordCmp_eq_iff.1 h))
  · exact Or.inr (Or.inr (wordCmp_gt_iff.1 h))

theorem wordCmp_lt_irrefl {x : List Nat} : ¬ wordCmp x x = .lt := by
  simp [wordCmp_refl]

theorem wordCmp_lt_ne {x y : List Nat} (h : wordCmp x y = .lt) : x ≠ y := by
  intro he; subst he; exact wordCmp_lt_irrefl h

/-- Profile record: `{ word, repeated, occur }`, as in `wprofile.hpp`.
`occur` is meaningful only when `repeated = false`. -/
structure ProfileItem where
  word : List Nat
  repeated : Bool
  occur : Nat
  deriving Repr, DecidableEq

/-- The `ProfileItem(std::string word)` constructor: a repeated item with
`occur = 0`. -/
def ProfileItem.repeatedOf (w : List Nat) : ProfileItem := ⟨w, true, 0⟩

/-- The `ProfileItem(std::string word, fileoff_t occur)` constructor:
a single-occurrence item. -/
def ProfileItem.singleOf (w : List Nat) (occ : Nat) : ProfileItem := ⟨w, false, occ⟩

/-- Strict word-sortedness of a profile stream (spec §3: within one profile
file, `word` is strictly increasing in lexicographic order). -/
def sortedProfile (l : List ProfileItem) : Prop :=
  l.Pairwise (fun a b => wordCmp a.word b.word = .lt)

instance : DecidablePred sortedProfile := fun l =>
  inferInstanceAs (Decidable (l.Pairwise _))

/-- Binary merge pass of `wmerge` (wmerge.cpp lines 183-199): compare head
words; strictly smaller head is copied through unchanged; equal heads emit
`ProfileItem(word)` (repeated) and pop both; afterwards the remaining side
is drained unchanged. -/
def mergePass : List ProfileItem → List ProfileItem → List ProfileItem
  | [], r => r
  | a :: l, [] => a :: l
  | a :: l, b :: r =>
    if wordCmp a.word b.word = .lt then a :: mergePass l (b :: r)
    else if wordCmp b.word a.word = .lt then b :: mergePass (a :: l) r
    else ProfileItem.repeatedOf a.word :: mergePass l r

/-- First record of a profile stream carrying the given word, if any. -/
def findWord (l : List ProfileItem) (w : List Nat) : Option ProfileItem :=
  l.find? (fun i => i.word = w)

theorem findWord_nil (w : List Nat) : findWord [] w = none := rfl

theorem findWord_cons (a : ProfileItem) (l : List ProfileItem) (w : List Nat) :
    findWord (a :: l) w = if a.word = w then some a else findWord l w := by
  simp only [findWord, List.find?]
  by_cases h : a.word = w <;> simp [h]

theorem findWord_eq_none {l : List ProfileItem} {w : List Nat}
    (h : ∀ i ∈ l, i.word ≠ w) : findWord l w = none := by
  induction l with
  | nil => rfl
  | cons a t ih =>
    rw [findWord_cons]
    rw [if_neg (h a (List.mem_cons_self a t))]
    exact ih fun i hi => h i (List.mem_cons_of_mem a hi)

theorem mem_mergePass_words {l r : List ProfileItem} {x : ProfileItem}
    (hx : x ∈ mergePass l r) :
    x.word ∈ l.map (·.word) ∨ x.word ∈ r.map (·.word) := by
  induction l, r using mergePass.induct with
  | case1 r =>
    simp only [mergePass] at hx
    exact Or.inr (List.mem_map.2 ⟨x, hx, rfl⟩)
  | case2 a l =>
    simp only [mergePass] at hx
    exact Or.inl (List.mem_map.2 ⟨x, hx, rfl⟩)
  | case3 a l b r hlt ih =>
    rw [mergePass, if_pos hlt] at hx
    rcases List.mem_cons.1 hx with h | h
    · exact Or.inl (List.mem_map.2 ⟨a, List.mem_cons_self a l, by rw [h]⟩)
    · rcases ih h with h' | h'
      · rcases List.mem_map.1 h' with ⟨i, hi, hiw⟩
        exact Or.inl (List.mem_map.2 ⟨i, List.mem_cons_of_mem a hi, hiw⟩)
      · exact Or.inr h'
  | case4 a l b r hlt hgt ih =>
    rw [mergePass, if_neg hlt, if_pos hgt] at hx
    rcases List.mem_cons.1 hx with h | h
    · exact Or.inr (List.mem_map.2 ⟨b, List.mem_cons_self b r, by rw [h]⟩)
    · rcases ih h with h' | h'
      · exact Or.inl h'
      · rcases List.mem_map.1 h' with ⟨i, hi, hiw⟩
        exact Or.inr (List.mem_map.2 ⟨i, List.mem_cons_of_mem b hi, hiw⟩)
  | case5 a l b r hlt hgt ih =>
    rw [mergePass, if_neg hlt, if_neg hgt] at hx
    rcases List.mem_cons.1 hx with h | h
    · exact Or.inl (List.mem_map.2 ⟨a, List.mem_cons_self a l, by rw [h]; rfl⟩)
    · rcases ih h with h' | h'
      · rcases List.mem_map.1 h' with ⟨i, hi, hiw⟩
        exact Or.inl (List.mem_map.2 ⟨i, List.mem_cons_of_mem a hi, hiw⟩)
      · rcases List.mem_map.1 h' with ⟨i, hi, hiw⟩
        exact Or.inr (List.mem_map.2 ⟨i, List.mem_cons_of_mem b hi, hiw⟩)

theorem mergePass_sorted {l r : List ProfileItem}
    (hl : sortedProfile l) (hr : sortedProfile r) :
    sortedProfile (mergePass l r) := by
  induction l, r using mergePass.induct with
  | case1 r => simpa [mergePass] using hr
  | case2 a l => simpa [mergePass] using hl
  | case3 a l b r hlt ih =>
    rw [mergePass, if_pos hlt]
    rcases List.pairwise_cons.1 hl with ⟨hal, hl'⟩
    refine List.pairwise_cons.2 ⟨?_, ih hl' hr⟩
    intro x hx
    rcases mem_mergePass_words hx with h | h
    · rcases List.mem_map.1 h with ⟨i, hi, hiw⟩
      rw [← hiw]; exact hal i hi
    · rcases List.mem_map.1 h with ⟨i, hi, hiw⟩
      rw [← hiw]
      rcases List.mem_cons.1 hi with h' | h'
      · rw [h']; exact hlt
      · exact wordCmp_lt_trans hlt ((List.pairwise_cons.1 hr).1 i h')
  | case4 a l b r hlt hgt ih =>
    rw [mergePass, if_neg hlt, if_pos hgt]
    rcases List.pairwise_cons.1 hr with ⟨hbr, hr'⟩
    refine List.pairwise_cons.2 ⟨?_, ih hl hr'⟩
    intro x hx
    rcases mem_mergePass_words hx with h | h
    · rcases List.mem_map.1 h with ⟨i, hi, hiw⟩
      rw [← hiw]
      rcases List.mem_cons.1 hi with h' | h'
      · rw [h']; exact hgt
      · exact wordCmp_lt_trans hgt ((List.pairwise_cons.1 hl).1 i h')
    · rcases List.mem_map.1 h with ⟨i, hi, hiw⟩
      rw [← hiw]; exact hbr i hi
  | case5 a l b r hlt hgt ih =>
    rw [mergePass, if_neg hlt, if_neg hgt]
    have hab : a.word = b.word := by
      rcases wordCmp_cases a.word b.word with h | h | h
      · exact absurd h hlt
      · exact h
      · exact absurd h hgt
    rcases List.pairwise_cons.1 hl with ⟨hal, hl'⟩
    rcases List.pairwise_cons.1 hr with ⟨hbr, hr'⟩
    refine List.pairwise_cons.2 ⟨?_, ih hl' hr'⟩
    intro x hx
    rcases mem_mergePass_words hx with h | h
    · rcases List.mem_map.1 h with ⟨i, hi, hiw⟩
      rw [← hiw]; exact hal i hi
    · rcases List.mem_map.1 h with ⟨i, hi, hiw⟩
      rw [← hiw]; rw [show (ProfileItem.repeatedOf a.word).word = b.word from hab]
      exact hbr i hi

theorem sorted_head_not_mem {a : ProfileItem} {l : List ProfileItem}
    (h : ∀ i ∈ l, wordCmp a.word i.word = .lt) :
    findWord l a.word = none :=
  findWord_eq_none fun i hi he => wordCmp_lt_ne (h i hi) he.symm

theorem mergePass_findWord {l r : List ProfileItem}
    (hl : sortedProfile l) (hr : sortedProfile r) (w : List Nat) :
    findWord (mergePass l r) w =
      match findWord l w, findWord r w with
      | none, none => none
      | some a, none => some a
      | none, some b => some b
      | some _, some _ => some (ProfileItem.repeatedOf w) := by
  induction l, r using mergePass.induct with
  | case1 r =>
    simp only [mergePass, findWord_nil]
    cases findWord r w <;> rfl
  | case2 a l =>
    simp only [mergePass, findWord_nil]
    cases findWord (a :: l) w <;> rfl
  | case3 a l b r hlt ih =>
    rcases List.pairwise_cons.1 hl with ⟨hal, hl'⟩
    rw [mergePass, if_pos hlt]
    by_cases hw : a.word = w
    · subst hw
      have h1 : findWord (a :: mergePass l (b :: r)) a.word = some a := by
        rw [findWord_cons, if_pos rfl]
      have h2 : findWord (a :: l) a.word = some a := by
        rw [findWord_cons, if_pos rfl]
      have h3 : findWord (b :: r) a.word = none := by
        refine sorted_head_not_mem ?_
        intro i hi
        rcases List.mem_cons.1 hi with h' | h'
        · rw [h']; exact hlt
        · exact wordCmp_lt_trans hlt ((List.pairwise_cons.1 hr).1 i h')
      rw [h1, h2, h3]
    · rw [show findWord (a :: mergePass l (b :: r)) w = findWord (mergePass l (b :: r)) w by
          rw [findWord_cons, if_neg hw],
        show findWord (a :: l) w = findWord l w by rw [findWord_cons, if_neg hw],
        ih hl' hr]
  | case4 a l b r hlt hgt ih =>
    rcases List.pairwise_cons.1 hr with ⟨hbr, hr'⟩
    rw [mergePass, if_neg hlt, if_pos hgt]
    by_cases hw : b.word = w
    · subst hw
      have h1 : findWord (b :: mergePass (a :: l) r) b.word = some b := by
        rw [findWord_cons, if_pos rfl]
      have h2 : findWord (b :: r) b.word = some b := by
        rw [findWord_cons, if_pos rfl]
      have h3 : findWord (a :: l) b.word = none := by
        refine sorted_head_not_mem ?_
        intro i hi
        rcases List.mem_cons.1 hi with h' | h'
        · rw [h']; exact hgt
        · exact wordCmp_lt_trans hgt ((List.pairwise_cons.1 hl).1 i h')
      rw [h1, h2, h3]
    · rw [show findWord (b :: mergePass (a :: l) r) w = findWord (mergePass (a :: l) r) w by
          rw [findWord_cons, if_neg hw],
        show findWord (b :: r) w = findWord r w by rw [findWord_cons, if_neg hw],
        ih hl hr']
  | case5 a l b r hlt hgt ih =>
    have hab : a.word = b.word := by
      rcases wordCmp_cases a.word b.word with h | h | h
      · exact absurd h hlt
      · exact h
      · exact absurd h hgt
    rcases List.pairwise_cons.1 hl with ⟨hal, hl'⟩
    rcases List.pairwise_cons.1 hr with ⟨hbr, hr'⟩
    rw [mergePass, if_neg hlt, if_neg hgt]
    by_cases hw : a.word = w
    · subst hw
      have h1 : findWord (ProfileItem.repeatedOf a.word :: mergePass l r) a.word =
          some (ProfileItem.repeatedOf a.word) := by
        rw [findWord_cons,
          if_pos (show (ProfileItem.repeatedOf a.word).word = a.word from rfl)]
      have h2 : findWord (a :: l) a.word = some a := by
        rw [findWord_cons, if_pos rfl]
      have h3 : findWord (b :: r) a.word = some b := by
        rw [findWord_cons, if_pos hab.symm]
      rw [h1, h2, h3]
    · rw [show findWord (ProfileItem.repeatedOf a.word :: mergePass l r) w =
            findWord (mergePass l r) w by
          rw [findWord_cons,
            if_neg (show ¬ (ProfileItem.repeatedOf a.word).word = w from hw)],
        show findWord (a :: l) w = findWord l w by rw [findWord_cons, if_neg hw],
        show findWord (b :: r) w = findWord r w by
          rw [findWord_cons, if_neg (fun h => hw (hab.trans h))],
        ih hl' hr']

/-- C3. Binary merge pass correctness (wmerge.cpp lines 183-199): for
strictly sorted (hence deduplicated) inputs, the output is strictly
sorted, and for every word `w`: `w` appears in the output iff it appears
in an input; a word present in both inputs is emitted as a repeated item;
a word present in exactly one input is copied through unchanged (so an
input-repeated flag is kept, and a singleton keeps `repeated = false`
and its `occur` offset). -/
theorem mergePass_correct (l r : List ProfileItem)
    (hl : sortedProfile l) (hr : sortedProfile r) :
    sortedProfile (mergePass l r) ∧
    ∀ w, findWord (mergePass l r) w =
      match findWord l w, findWord r w with
      | none, none => none
      | some a, none => some a
      | none, some b => some b
      | some _, some _ => some (ProfileItem.repeatedOf w) :=
  ⟨mergePass_sorted hl hr, fun w => mergePass_findWord hl hr w⟩

/-- C3 witness: the theorem applied to concrete sorted inputs.
Left holds `ab` (singleton at offset 3) and `cd` (repeated);
right holds `cd` (singleton at offset 9) and `ee` (singleton at 11). -/
theorem mergePass_correct_witness :
    sortedProfile [ProfileItem.singleOf [97, 98] 3, ProfileItem.repeatedOf [99, 100]] ∧
    sortedProfile [ProfileItem.singleOf [99, 100] 9, ProfileItem.singleOf [101, 101] 11] ∧
    (mergePass
      [ProfileItem.singleOf [97, 98] 3, ProfileItem.repeatedOf [99, 100]]
      [ProfileItem.singleOf [99, 100] 9, ProfileItem.singleOf [101, 101] 11]) =
      [ProfileItem.singleOf [97, 98] 3, ProfileItem.repeatedOf [99, 100],
        ProfileItem.singleOf [101, 101] 11] ∧
    sortedProfile (mergePass
      [ProfileItem.singleOf [97, 98] 3, ProfileItem.repeatedOf [99, 100]]
      [ProfileItem.singleOf [99, 100] 9, ProfileItem.singleOf [101, 101] 11]) ∧
    findWord (mergePass
      [ProfileItem.singleOf [97, 98] 3, ProfileItem.repeatedOf [99, 100]]
      [ProfileItem.singleOf [99, 100] 9, ProfileItem.singleOf [101, 101] 11]) [97, 98] =
      some (ProfileItem.singleOf [97, 98] 3) := by
  have hev : (mergePass
      [ProfileItem.singleOf [97, 98] 3, ProfileItem.repeatedOf [99, 100]]
      [ProfileItem.singleOf [99, 100] 9, ProfileItem.singleOf [101, 101] 11]) =
      [ProfileItem.singleOf [97, 98] 3, ProfileItem.repeatedOf [99, 100],
        ProfileItem.singleOf [101, 101] 11] := by
    simp +decide [mergePass, ProfileItem.singleOf, ProfileItem.repeatedOf]
  refine ⟨by decide, by decide, hev, ?_, ?_⟩
  · exact (mergePass_correct _ _ (by decide) (by decide)).1
  · rw [(mergePass_correct _ _ (by decide) (by decide)).2 [97, 98]]
    decide

/-! ### Singleton filter (wpflfilter.cpp) and find-first (wfindfirst.cpp) -/

/-- Skip leading repeated records, as done by the `ProfileInputFilter`
constructor and after each `pop` (wpflfilter.cpp lines 37-38, 47-48). -/
def skipRepeated (l : List ProfileItem) : List ProfileItem :=
  l.dropWhile (·.repeated)

/-- The sequence of records obtained by repeatedly calling `pop` on a
`ProfileInputFilter` until `empty()`, starting from a post-constructor
state (head not repeated, or exhausted). -/
def filterPops : List ProfileItem → List ProfileItem
  | [] => []
  | i :: rest => i :: filterPops (skipRepeated rest)
termination_by l => l.length
decreasing_by
  simp only [skipRepeated, List.length_cons]
  exact Nat.lt_succ_of_le (List.dropWhile_suffix _).length_le

theorem filterPops_skipRepeated (l : List ProfileItem) :
    filterPops (skipRepeated l) = l.filter (fun i => !i.repeated) := by
  induction l with
  | nil => simp [skipRepeated, filterPops]
  | cons a t ih =>
    by_cases ha : a.repeated
    · rw [show skipRepeated (a :: t) = skipRepeated t by
          simp [skipRepeated, List.dropWhile_cons, ha], ih]
      simp [List.filter_cons, ha]
    · rw [show skipRepeated (a :: t) = a :: t by
          simp [skipRepeated, List.dropWhile_cons, ha]]
      rw [show filterPops (a :: t) = a :: filterPops (skipRepeated t) from by
          simp [filterPops], ih]
      simp [List.filter_cons, ha]

/-- Scanning loop of `wfindfirst` (wfindfirst.cpp lines 44-58): keep the
current `result`/`off`, replacing them when `result` is still empty or the
new item's `occur` is strictly smaller. -/
def findScan : List ProfileItem → List Nat → Nat → List Nat
  | [], result, _ => result
  | item :: rest, result, off =>
    if result = [] then findScan rest item.word item.occur
    else if off > item.occur then findScan rest item.word item.occur
    else findScan rest result off

/-- The `wfindfirst` stage: open the root profile through the singleton
filter and scan it to completion. -/
def wfindfirstRun (stream : List ProfileItem) : List Nat :=
  findScan (filterPops (skipRepeated stream)) [] 0

theorem findScan_spec (S : List ProfileItem) (w : List Nat) (off : Nat)
    (hw : w ≠ []) (hS : ∀ i ∈ S, i.word ≠ []) :
    (findScan S w off = w ∧ ∀ j ∈ S, off ≤ j.occur) ∨
    (∃ k : Fin S.length, findScan S w off = (S.get k).word ∧ (S.get k).occur < off ∧
      (∀ j : Fin S.length, (S.get k).occur ≤ (S.get j).occur) ∧
      (∀ j : Fin S.length, j < k → (S.get k).occur < (S.get j).occur)) := by
  induction S generalizing w off with
  | nil => exact Or.inl ⟨rfl, by simp⟩
  | cons i rest ih =>
    have hiw : i.word ≠ [] := hS i (List.mem_cons_self i rest)
    have hS' : ∀ j ∈ rest, j.word ≠ [] := fun j hj => hS j (List.mem_cons_of_mem i hj)
    rw [findScan, if_neg hw]
    by_cases hoff : off > i.occur
    · rw [if_pos hoff]
      rcases ih i.word i.occur hiw hS' with ⟨heq, hall⟩ | ⟨k, hk, hklt, hkmin, hkstrict⟩
      · refine Or.inr ⟨⟨0, Nat.succ_pos _⟩, heq, hoff, ?_, ?_⟩
        · intro j
          refine Fin.cases ?_ ?_ j
          · exact Nat.le_refl _
          · intro j'
            exact hall (rest.get j') (List.get_mem rest j'.1 j'.2)
        · intro j hj
          exact absurd hj (Fin.not_lt_zero j)
      · refine Or.inr ⟨k.succ, hk, Nat.lt_trans hklt hoff, ?_, ?_⟩
        · intro j
          refine Fin.cases ?_ ?_ j
          · exact Nat.le_of_lt hklt
          · intro j'
            exact hkmin j'
        · intro j hj
          refine Fin.cases ?_ ?_ j hj
          · intro _
            exact hklt
          · intro j' hj'
            exact hkstrict j' (by simpa using hj')
    · rw [if_neg hoff]
      rcases ih w off hw hS' with ⟨heq, hall⟩ | ⟨k, hk, hklt, hkmin, hkstrict⟩
      · refine Or.inl ⟨heq, ?_⟩
        intro j hj
        rcases List.mem_cons.1 hj with h | h
        · rw [h]; exact Nat.le_of_not_lt hoff
        · exact hall j h
      · refine Or.inr ⟨k.succ, hk, hklt, ?_, ?_⟩
        · intro j
          refine Fin.cases ?_ ?_ j
          · exact Nat.le_trans (Nat.le_of_lt hklt) (Nat.le_of_not_lt hoff)
          · intro j'
            exact hkmin j'
        · intro j hj
          refine Fin.cases ?_ ?_ j hj
          · intro _
            exact Nat.lt_of_lt_of_le hklt (Nat.le_of_not_lt hoff)
          · intro j' hj'
            exact hkstrict j' (by simpa using hj')

/-- C2. Find-first correctness (wfindfirst.cpp lines 35-60, through the
singleton filter of wpflfilter.cpp): for a stream whose records all have
nonempty words, the result is empty iff the stream has no `repeated=false`
record; otherwise it is the word of a `repeated=false` record whose
`occur` is minimal among all such records and which is the first one in
stream order attaining that minimum. -/
theorem wfindfirst_correct (stream : List ProfileItem)
    (hw : ∀ i ∈ stream, i.word ≠ []) :
    (wfindfirstRun stream = [] ↔ stream.filter (fun i => !i.repeated) = []) ∧
    ∀ hne : stream.filter (fun i => !i.repeated) ≠ [],
      ∃ k : Fin (stream.filter (fun i => !i.repeated)).length,
        wfindfirstRun stream = ((stream.filter (fun i => !i.repeated)).get k).word ∧
        ((stream.filter (fun i => !i.repeated)).get k).repeated = false ∧
        (∀ j, ((stream.filter (fun i => !i.repeated)).get k).occur ≤
          ((stream.filter (fun i => !i.repeated)).get j).occur) ∧
        (∀ j, j < k → ((stream.filter (fun i => !i.repeated)).get k).occur <
          ((stream.filter (fun i => !i.repeated)).get j).occur) := by
  have hrun : wfindfirstRun stream =
      findScan (stream.filter (fun i => !i.repeated)) [] 0 := by
    rw [wfindfirstRun, filterPops_skipRepeated]
  have hSw : ∀ i ∈ stream.filter (fun i => !i.repeated), i.word ≠ [] :=
    fun i hi => hw i (List.mem_of_mem_filter hi)
  rcases hS : stream.filter (fun i => !i.repeated) with _ | ⟨i, rest⟩
  · rw [hS] at hrun ⊢
    constructor
    · rw [hrun]
      simp [findScan]
    · intro hne
      exact absurd rfl hne
  · have hiw : i.word ≠ [] := hSw i (by rw [hS]; exact List.mem_cons_self i rest)
    have hrest : ∀ j ∈ rest, j.word ≠ [] :=
      fun j hj => hSw j (by rw [hS]; exact List.mem_cons_of_mem i hj)
    have hstep : wfindfirstRun stream = findScan rest i.word i.occur := by
      rw [hrun, hS, findScan, if_pos rfl]
    have hrep : ∀ j ∈ i :: rest, j.repeated = false := by
      intro j hj
      have : j ∈ stream.filter (fun i => !i.repeated) := by rw [hS]; exact hj
      have := List.of_mem_filter this
      simpa using this
    rw [hS] at hrun ⊢
    constructor
    · constructor
      · intro hempty
        rcases findScan_spec rest i.word i.occur hiw hrest with ⟨heq, _⟩ |
          ⟨k, hk, _, _, _⟩
        · rw [hstep, heq] at hempty
          exact absurd hempty hiw
        · rw [hstep, hk] at hempty
          exact absurd hempty (hrest (rest.get k) (List.get_mem rest k.1 k.2))
      · intro h
        exact absurd h (List.cons_ne_nil i rest)
    · intro _
      rcases findScan_spec rest i.word i.occur hiw hrest with ⟨heq, hall⟩ |
        ⟨k, hk, hklt, hkmin, hkstrict⟩
      · refine ⟨⟨0, Nat.succ_pos _⟩, by rw [hstep, heq]; rfl,
          hrep i (List.mem_cons_self i rest), ?_, ?_⟩
        · intro j
          refine Fin.cases ?_ ?_ j
          · exact Nat.le_refl _
          · intro j'
            exact hall (rest.get j') (List.get_mem rest j'.1 j'.2)
        · intro j hj
          exact absurd hj (Fin.not_lt_zero j)
      · refine ⟨k.succ, by rw [hstep, hk]; rfl,
          hrep (rest.get k) (List.mem_cons_of_mem i (List.get_mem rest k.1 k.2)), ?_, ?_⟩
        · intro j
          refine Fin.cases ?_ ?_ j
          · exact Nat.le_of_lt hklt
          · intro j'
            exact hkmin j'
        · intro j hj
          refine Fin.cases ?_ ?_ j hj
          · intro _
            exact hklt
          · intro j' hj'
            exact hkstrict j' (by simpa using hj')

/-- C2 witness: the theorem applied to a concrete stream
`[cd repeated, ab@5, ee@3, ff@3]`: the singleton with the smallest offset
is `ee` at offset 3 (first of the tied pair), and the run indeed
returns `ee`. -/
theorem wfindfirst_correct_witness :
    (∀ i ∈ [ProfileItem.repeatedOf [99, 100], ProfileItem.singleOf [97, 98] 5,
      ProfileItem.singleOf [101, 101] 3, ProfileItem.singleOf [102, 102] 3],
        i.word ≠ []) ∧
    wfindfirstRun [ProfileItem.repeatedOf [99, 100], ProfileItem.singleOf [97, 98] 5,
      ProfileItem.singleOf [101, 101] 3, ProfileItem.singleOf [102, 102] 3] =
      [101, 101] ∧
    ∃ hne : ([ProfileItem.repeatedOf [99, 100], ProfileItem.singleOf [97, 98] 5,
        ProfileItem.singleOf [101, 101] 3,
        ProfileItem.singleOf [102, 102] 3].filter (fun i => !i.repeated)) ≠ [],
      ∃ k, wfindfirstRun [ProfileItem.repeatedOf [99, 100],
          ProfileItem.singleOf [97, 98] 5, ProfileItem.singleOf [101, 101] 3,
          ProfileItem.singleOf [102, 102] 3] =
        (([ProfileItem.repeatedOf [99, 100], ProfileItem.singleOf [97, 98] 5,
          ProfileItem.singleOf [101, 101] 3,
          ProfileItem.singleOf [102, 102] 3].filter (fun i => !i.repeated)).get k).word := by
  have hrun : wfindfirstRun [ProfileItem.repeatedOf [99, 100],
      ProfileItem.singleOf [97, 98] 5, ProfileItem.singleOf [101, 101] 3,
      ProfileItem.singleOf [102, 102] 3] = [101, 101] := by
    rw [wfindfirstRun, filterPops_skipRepeated]
    simp +decide [findScan, ProfileItem.repeatedOf, ProfileItem.singleOf]
  refine ⟨by decide, hrun, ?_⟩
  have h := wfindfirst_correct [ProfileItem.repeatedOf [99, 100],
    ProfileItem.singleOf [97, 98] 5, ProfileItem.singleOf [101, 101] 3,
    ProfileItem.singleOf [102, 102] 3] (by decide)
  rcases h.2 (by decide) with ⟨k, hk, _⟩
  exact ⟨by decide, k, hk⟩

/-! ### Simple profile codec (wpflsimple.cpp)

Fixed-width integers are written in host byte order (x86: little-endian);
strings are written as their bytes followed by a 0x00 terminator
(wio.hpp `operator<<`). -/

/-- Little-endian byte serialization of a value into `k` bytes. -/
def leBytes : Nat → Nat → List Nat
  | 0, _ => []
  | k + 1, v => (v % 256) :: leBytes k (v / 256)

/-- Little-endian byte deserialization. -/
def leVal : List Nat → Nat
  | [] => 0
  | b :: rest => b + 256 * leVal rest

theorem leBytes_length (k v : Nat) : (leBytes k v).length = k := by
  induction k generalizing v with
  | zero => rfl
  | succ k ih => simp [leBytes, ih]

theorem leVal_leBytes {k v : Nat} (h : v < 256 ^ k) : leVal (leBytes k v) = v := by
  induction k generalizing v with
  | zero =>
    have : v = 0 := Nat.lt_one_iff.1 (by simpa using h)
    simp [this, leBytes, leVal]
  | succ k ih =>
    have hdiv : v / 256 < 256 ^ k := by
      rw [Nat.div_lt_iff_lt_mul (by norm_num)]
      calc v < 256 ^ (k + 1) := h
        _ = 256 ^ k * 256 := by ring
    rw [leBytes, leVal, ih hdiv, Nat.mod_add_div v 256]

/-- `ProfileOutputSimple::push` (wpflsimple.cpp lines 70-77): a repeated
item stores occurrence 0; a singleton stores `occur + 1`, rejecting
wraparound to 0; then the record is `word ++ 0x00 ++ u64`. `none` models
the thrown `std::logic_error`. -/
def profilePush (pi : ProfileItem) : Option (List Nat) :=
  if pi.repeated then
    some (pi.word ++ [0] ++ leBytes 8 0)
  else if (pi.occur + 1) % 2 ^ 64 = 0 then none
  else some (pi.word ++ [0] ++ leBytes 8 ((pi.occur + 1) % 2 ^ 64))

/-- `ProfileInputSimple::popFill` (wpflsimple.cpp lines 41-55): read a
NUL-terminated word and a u64 occurrence; occurrence 0 means repeated,
otherwise the stored value is `occur + 1`. `none` models premature EOF
(`profile-corrupt`). -/
def profileParseAfter (w : List Nat) : List Nat → Option (ProfileItem × List Nat)
  | 0 :: rest =>
    if rest.length < 8 then none
    else if leVal (rest.take 8) = 0 then some (⟨w, true, 0⟩, rest.drop 8)
    else some (⟨w, false, leVal (rest.take 8) - 1⟩, rest.drop 8)
  | _ => none

def profileParse (bytes : List Nat) : Option (ProfileItem × List Nat) :=
  profileParseAfter (bytes.takeWhile (fun b => b ≠ 0))
    (bytes.drop (bytes.takeWhile (fun b => b ≠ 0)).length)

/-- C5 counterexample: the record emitted for the repeated word `"a"` is
`61 00 00 00 00 00 00 00 00 00` (word, NUL, u64 value 0). Under the
claimed layout the byte after the NUL is a flag; it is 0, so a full
8-byte occur field would have to follow, but only 7 bytes do, and a
nonzero flag would require nothing to follow. -/
theorem profile_encoding_not_flag_layout :
    profilePush (ProfileItem.repeatedOf [97]) =
      some [97, 0, 0, 0, 0, 0, 0, 0, 0, 0] ∧
    ¬ ∃ (f : Nat) (tail : List Nat),
        [97, 0, 0, 0, 0, 0, 0, 0, 0, 0] =
          (ProfileItem.repeatedOf [97]).word ++ [0] ++ f :: tail ∧
        (f = 0 → tail.length = 8) ∧ (f ≠ 0 → tail = []) := by
  constructor
  · rfl
  · rintro ⟨f, tail, heq, h0, hn0⟩
    have hf : f = 0 ∧ tail = [0, 0, 0, 0, 0, 0, 0] := by
      have := heq
      simp [ProfileItem.repeatedOf] at this
      exact ⟨this.1.symm, this.2.symm⟩
    rcases hf with ⟨hf0, htail⟩
    have := h0 hf0
    rw [htail] at this
    simp at this

theorem takeWhile_append_nul {w t : List Nat} (hw : ∀ b ∈ w, b ≠ 0) :
    (w ++ 0 :: t).takeWhile (fun b => b ≠ 0) = w := by
  induction w with
  | nil => simp
  | cons a r ih =>
    have ha : a ≠ 0 := hw a (List.mem_cons_self a r)
    have ih' := ih fun b hb => hw b (List.mem_cons_of_mem a hb)
    simp only [ne_eq, decide_not] at ih' ⊢
    simp only [List.cons_append, List.takeWhile_cons]
    simp [ha, ih']

/-- C5 amended: every record emitted by the output codec is
`word ++ 0x00 ++ u64 v` where `v = 0` exactly for repeated items and
`v = occur + 1` for singletons (offsets whose increment would wrap are
rejected), and the input codec parses this same layout, recovering the
repeated flag and, for singletons, the occur offset. -/
theorem profile_codec_amended (pi : ProfileItem) (rest : List Nat)
    (hw : ∀ b ∈ pi.word, b ≠ 0)
    (hocc : pi.repeated = false → pi.occur + 1 < 2 ^ 64) :
    ∃ v, profilePush pi = some (pi.word ++ [0] ++ leBytes 8 v) ∧
      (v = 0 ↔ pi.repeated = true) ∧
      (pi.repeated = false → v = pi.occur + 1) ∧
      profileParse ((pi.word ++ [0] ++ leBytes 8 v) ++ rest) =
        some (⟨pi.word, pi.repeated, if pi.repeated then 0 else pi.occur⟩, rest) := by
  have hparse : ∀ v, v < 2 ^ 64 →
      profileParse ((pi.word ++ [0] ++ leBytes 8 v) ++ rest) =
        (if v = 0 then some (⟨pi.word, true, 0⟩, rest)
          else some (⟨pi.word, false, v - 1⟩, rest)) := by
    intro v hv
    have hshape : (pi.word ++ [0] ++ leBytes 8 v) ++ rest =
        pi.word ++ 0 :: (leBytes 8 v ++ rest) := by simp
    have htw : ((pi.word ++ [0] ++ leBytes 8 v) ++ rest).takeWhile
        (fun b => b ≠ 0) = pi.word := by
      rw [hshape]; exact takeWhile_append_nul hw
    have hdrop : ((pi.word ++ [0] ++ leBytes 8 v) ++ rest).drop pi.word.length =
        0 :: (leBytes 8 v ++ rest) := by
      rw [hshape, List.drop_left' rfl]
    rw [profileParse, htw, hdrop, profileParseAfter]
    have hlen : ¬ ((leBytes 8 v ++ rest).length < 8) := by
      simp [leBytes_length]
    rw [if_neg hlen]
    have htake : (leBytes 8 v ++ rest).take 8 = leBytes 8 v := by
      rw [List.take_left' (leBytes_length 8 v)]
    have hdrop8 : (leBytes 8 v ++ rest).drop 8 = rest := by
      rw [List.drop_left' (leBytes_length 8 v)]
    rw [htake, hdrop8, leVal_leBytes (by simpa using hv)]
  cases hrep : pi.repeated with
  | true =>
    refine ⟨0, ?_, by simp, by simp, ?_⟩
    · rw [profilePush, if_pos hrep]
    · rw [hparse 0 (by norm_num), if_pos rfl]
      simp
  | false =>
    have hocc' : pi.occur + 1 < 2 ^ 64 := hocc hrep
    have hv : (pi.occur + 1) % 2 ^ 64 = pi.occur + 1 :=
      Nat.mod_eq_of_lt hocc'
    refine ⟨pi.occur + 1, ?_, by simp, fun _ => rfl, ?_⟩
    · rw [profilePush, if_neg (by simp [hrep]), hv,
        if_neg (Nat.succ_ne_zero _)]
    · rw [hparse (pi.occur + 1) hocc', if_neg (Nat.succ_ne_zero _)]
      simp

/-- C5 amended-theorem witness at the singleton record `("ab", occur 3)`
followed by one extra byte of stream. -/
theorem profile_codec_amended_witness :
    (∀ b ∈ (ProfileItem.singleOf [97, 98] 3).word, b ≠ 0) ∧
    ∃ v, profilePush (ProfileItem.singleOf [97, 98] 3) =
        some ((ProfileItem.singleOf [97, 98] 3).word ++ [0] ++ leBytes 8 v) ∧
      (v = 0 ↔ (ProfileItem.singleOf [97, 98] 3).repeated = true) ∧
      ((ProfileItem.singleOf [97, 98] 3).repeated = false →
        v = (ProfileItem.singleOf [97, 98] 3).occur + 1) ∧
      profileParse (((ProfileItem.singleOf [97, 98] 3).word ++ [0] ++
          leBytes 8 v) ++ [55]) =
        some (⟨(ProfileItem.singleOf [97, 98] 3).word,
          (ProfileItem.singleOf [97, 98] 3).repeated,
          if (ProfileItem.singleOf [97, 98] 3).repeated then 0
            else (ProfileItem.singleOf [97, 98] 3).occur⟩, [55]) :=
  ⟨by decide, profile_codec_amended (ProfileItem.singleOf [97, 98] 3) [55]
    (by decide) (by intro _; norm_num [ProfileItem.singleOf])⟩

/-! ### Buffer-mode append file (wiobase.cpp `AppendFileBuffer`) -/

/-- Page size used by the I/O layer (wiobase.hpp `bufsiz`). -/
def bufsiz : Nat := 4096

/-- State of an `AppendFileBuffer`: logical position counter `tell`,
bytes pending in the page buffer `writelen` (with its size invariant),
and bytes already handed to the `write` syscall. -/
structure BufferFile where
  tell : Nat
  writelen : Nat
  flushed : Nat
  hwl : writelen ≤ bufsiz

/-- Flushing the page buffer to the underlying file
(`AppendFileBase::write` call inside the loop). -/
def flushPage (w : BufferFile) : BufferFile :=
  { w with flushed := w.flushed + w.writelen, writelen := 0, hwl := Nat.zero_le _ }

/-- Start of a loop iteration: flush the page buffer if it is full
(wiobase.cpp lines 144-147). -/
def loopTarget (w : BufferFile) : BufferFile :=
  if w.writelen = bufsiz then flushPage w else w

theorem loopTarget_writelen_lt (w : BufferFile) :
    (loopTarget w).writelen < bufsiz := by
  by_cases hfull : w.writelen = bufsiz
  · have h0 : (0 : Nat) < bufsiz := by norm_num [bufsiz]
    simpa [loopTarget, hfull, flushPage] using h0
  · simpa [loopTarget, hfull] using Nat.lt_of_le_of_ne w.hwl hfull

/-- Copy `cur` bytes into the page buffer (the `memcpy` of
wiobase.cpp lines 150-152). -/
def copyChunk (w : BufferFile) (cur : Nat) (h : w.writelen + cur ≤ bufsiz) :
    BufferFile :=
  { w with writelen := w.writelen + cur, hwl := h }

/-- Loop body of `AppendFileBuffer::write` (wiobase.cpp lines 142-153):
while bytes remain, flush a full page buffer, then copy
`min (bufsiz - writelen) size` bytes into it. Returns the final state
and the final value of the loop variable `size`. -/
def bufferWriteLoop (w : BufferFile) (size : Nat) : BufferFile × Nat :=
  if hsz : size = 0 then (w, size)
  else
    bufferWriteLoop
      (copyChunk (loopTarget w) (min (bufsiz - (loopTarget w).writelen) size)
        (by have := loopTarget_writelen_lt w; omega))
      (size - min (bufsiz - (loopTarget w).writelen) size)
termination_by size
decreasing_by
  have := loopTarget_writelen_lt w
  omega

/-- `AppendFileBuffer::write`: run the copy loop, then advance `tell` by
the final value of the (already consumed) loop variable `size`
(wiobase.cpp line 157, `tell += size`). -/
def bufferWrite (w : BufferFile) (size : Nat) : BufferFile :=
  let res := bufferWriteLoop w size
  { res.1 with tell := res.1.tell + res.2 }

theorem bufferWriteLoop_rem_zero (w : BufferFile) (size : Nat) :
    (bufferWriteLoop w size).2 = 0 := by
  induction w, size using bufferWriteLoop.induct with
  | case1 w => rw [bufferWriteLoop, dif_pos rfl]
  | case2 w size hsz ih =>
    rw [bufferWriteLoop, dif_neg hsz]
    exact ih

/-- The logical position never advances: the loop has consumed `size`
down to 0 before `tell += size` runs. -/
theorem bufferWrite_tell_unchanged (w : BufferFile) (size : Nat) :
    (bufferWrite w size).tell = (bufferWriteLoop w size).1.tell := by
  simp [bufferWrite, bufferWriteLoop_rem_zero]

theorem bufferWriteLoop_tell_fixed (w : BufferFile) (size : Nat) :
    (bufferWriteLoop w size).1.tell = w.tell := by
  induction w, size using bufferWriteLoop.induct with
  | case1 w => rw [bufferWriteLoop, dif_pos rfl]
  | case2 w size hsz ih =>
    rw [bufferWriteLoop, dif_neg hsz]
    rw [ih]
    by_cases hfull : w.writelen = bufsiz <;>
      simp [copyChunk, loopTarget, hfull, flushPage]

/-- C9. Buffer-mode append tell, evaluated at the failing input: a fresh
buffer file (opened at position 0) receives a single 4-byte write; the
claim requires `tell() = 0 + 4`, but the code leaves `tell = 0`, because
`tell += size` executes after the copy loop has decremented `size` to 0.
-/
theorem bufferWrite_tell_bug :
    (bufferWrite ⟨0, 0, 0, Nat.zero_le _⟩ 4).tell = 0 ∧
    (bufferWrite ⟨0, 0, 0, Nat.zero_le _⟩ 4).tell ≠ 0 + 4 := by
  have h : (bufferWrite ⟨0, 0, 0, Nat.zero_le _⟩ 4).tell = 0 := by
    rw [bufferWrite_tell_unchanged, bufferWriteLoop_tell_fixed]
  exact ⟨h, by rw [h]; omega⟩

/-! ### Bloom-ed strings (wbloom.hpp) -/

/-- Width in bytes of the bloom part (`sizeof(unsigned long)` = 8). -/
def bloomWidth : Nat := 8

/-- Packing loop of `Bloom::decompose` (wbloom.hpp lines 81-84): the first
`k` bytes of the word, zero-padded past its end, as a big-endian integer
(`bloom = (bloom << 8) | (w & 0xff)` repeated `k` times). -/
def bloomFill : Nat → List Nat → Nat
  | 0, _ => 0
  | k + 1, [] => 0 * 256 ^ k + bloomFill k []
  | k + 1, b :: rest => b * 256 ^ k + bloomFill k rest

/-- A decomposed word: the numeric bloom part plus the optional pooled
suffix (`pool = nullptr` modelled as `none`). -/
structure BloomKey where
  bloom : Nat
  pool : Option (List Nat)
  deriving Repr, DecidableEq

/-- `Bloom::decompose` (wbloom.hpp lines 78-93): pack the first 8 bytes;
if the word is longer, point the pool at the remaining suffix. -/
def bloomDecompose (word : List Nat) : BloomKey :=
  { bloom := bloomFill bloomWidth word,
    pool := if bloomWidth < word.length then some (word.drop bloomWidth) else none }

/-- `Bloom::operator-` (wbloom.hpp lines 102-114) as a three-way
comparison: numeric comparison of the bloom parts, then pool nullity
(`none` first), then `strcmp` of the pooled strings. On NUL-free suffix
lists `strcmp` coincides with `wordCmp`. -/
def bloomCmp (x y : BloomKey) : Ordering :=
  if x.bloom ≠ y.bloom then (if x.bloom > y.bloom then .gt else .lt)
  else
    match x.pool, y.pool with
    | none, none => .eq
    | none, some _ => .lt
    | some _, none => .gt
    | some p, some q => wordCmp p q

/-- One byte of the bloom part: `(bloom >> (8*i)) & 0xff`
(wbloom.hpp line 136). -/
def bloomByte (v i : Nat) : Nat := v / 256 ^ i % 256

/-- The `bloomrev` buffer of `Bloom::reconstruct` (wbloom.hpp
lines 131-137): the 8 bloom bytes, most significant first. -/
def bloomRev (v : Nat) : List Nat :=
  [bloomByte v 7, bloomByte v 6, bloomByte v 5, bloomByte v 4,
    bloomByte v 3, bloomByte v 2, bloomByte v 1, bloomByte v 0]

/-- `Bloom::reconstruct` (wbloom.hpp lines 127-143): print `bloomrev` as a
C string (stopping at the first NUL byte) followed by the pooled suffix.
-/
def bloomReconstruct (x : BloomKey) : List Nat :=
  (bloomRev x.bloom).takeWhile (fun b => b ≠ 0) ++ x.pool.getD []

/-- Zero-padding of a word to exactly `k` bytes, the denotation of the
packing loop's input. -/
def padTo (k : Nat) (w : List Nat) : List Nat :=
  w.take k ++ List.replicate (k - w.length) 0

theorem padTo_length (k : Nat) (w : List Nat) : (padTo k w).length = k := by
  simp only [padTo, List.length_append, List.length_take, List.length_replicate]
  omega

theorem bloomFill_lt (k : Nat) (w : List Nat) (hb : ∀ b ∈ w, b < 256) :
    bloomFill k w < 256 ^ k := by
  induction k generalizing w with
  | zero => simp [bloomFill]
  | succ k ih =>
    cases w with
    | nil =>
      have := ih ([] : List Nat) (by simp)
      have hpow : (256 : Nat) ^ k ≤ 256 ^ (k + 1) :=
        Nat.pow_le_pow_right (by norm_num) (Nat.le_succ k)
      simp only [bloomFill]
      omega
    | cons b rest =>
      have hb' : b < 256 := hb b (List.mem_cons_self b rest)
      have hr := ih rest (fun x hx => hb x (List.mem_cons_of_mem b hx))
      simp only [bloomFill]
      calc b * 256 ^ k + bloomFill k rest
          < b * 256 ^ k + 256 ^ k := by omega
        _ = (b + 1) * 256 ^ k := by ring
        _ ≤ 256 * 256 ^ k := by
            exact Nat.mul_le_mul_right _ (by omega)
        _ = 256 ^ (k + 1) := by ring

theorem bloomByte_high_add {k hd rest : Nat} (hrest : rest < 256 ^ k)
    (hhd : hd < 256) :
    (∀ i, i < k → bloomByte (hd * 256 ^ k + rest) i = bloomByte rest i) ∧
    bloomByte (hd * 256 ^ k + rest) k = hd := by
  constructor
  · intro i hik
    have hdvd : 256 ^ i ∣ hd * 256 ^ k :=
      Dvd.dvd.mul_left (pow_dvd_pow 256 (Nat.le_of_lt hik)) hd
    rw [bloomByte, bloomByte, Nat.add_div_of_dvd_right hdvd]
    rcases hdvd with ⟨c, hc⟩
    rw [hc, Nat.mul_div_cancel_left c (Nat.pos_pow_of_pos i (by norm_num))]
    have h256 : (256 : Nat) ∣ c := by
      have : 256 ^ (i + 1) ∣ hd * 256 ^ k :=
        Dvd.dvd.mul_left (pow_dvd_pow 256 hik) hd
      rcases this with ⟨d, hd2⟩
      rw [hc] at hd2
      have hpow : (256 : Nat) ^ i > 0 := Nat.pos_pow_of_pos i (by norm_num)
      have : c = 256 * d := by
        have h2 : 256 ^ i * c = 256 ^ i * (256 * d) := by
          rw [hd2]; ring
        exact Nat.eq_of_mul_eq_mul_left hpow h2
      exact ⟨d, this⟩
    omega
  · rw [bloomByte, Nat.add_div_of_dvd_right (Dvd.intro_left hd rfl),
      Nat.mul_div_cancel _ (Nat.pos_pow_of_pos k (by norm_num)),
      Nat.div_eq_of_lt hrest]
    omega

theorem bloomByte_bloomFill (k : Nat) (w : List Nat) (hb : ∀ b ∈ w, b < 256) :
    ∀ i, (hik : i < k) →
      bloomByte (bloomFill k w) i =
        (padTo k w).get ⟨k - 1 - i, by rw [padTo_length]; omega⟩ := by
  induction k generalizing w with
  | zero => intro i hik; omega
  | succ k ih =>
    intro i hik
    cases w with
    | nil =>
      have hfill : bloomFill (k + 1) ([] : List Nat) = 0 := by
        clear ih hik
        induction k with
        | zero => rfl
        | succ k ihk => simp only [bloomFill] at ihk ⊢; omega
      rw [hfill]
      have hpad : padTo (k + 1) ([] : List Nat) = List.replicate (k + 1) 0 := by
        simp [padTo]
      have : bloomByte 0 i = 0 := by simp [bloomByte]
      rw [this]
      have hlt : k - i < k + 1 := by omega
      rw [List.get_eq_getElem]
      simp only [hpad]
      rw [List.getElem_replicate]
    | cons b rest =>
      have hb' : b < 256 := hb b (List.mem_cons_self b rest)
      have hrest : ∀ x ∈ rest, x < 256 :=
        fun x hx => hb x (List.mem_cons_of_mem b hx)
      have hfl := bloomFill_lt k rest hrest
      have hsplit := bloomByte_high_add hfl hb'
      have hpad : padTo (k + 1) (b :: rest) = b :: padTo k rest := by
        have harith : k + 1 - (b :: rest).length = k - rest.length := by
          simp only [List.length_cons]
          omega
        rw [padTo, padTo, List.take_succ_cons, harith, List.cons_append]
      rcases Nat.lt_or_ge i k with hik' | hik'
      · rw [show bloomFill (k + 1) (b :: rest) = b * 256 ^ k + bloomFill k rest
            from rfl, hsplit.1 i hik', ih rest hrest i hik']
        have hidx : k + 1 - 1 - i = (k - 1 - i) + 1 := by omega
        rw [List.get_eq_getElem, List.get_eq_getElem]
        simp only [hpad, hidx]
        rw [List.getElem_cons_succ]
      · have hik0 : i = k := by omega
        subst hik0
        rw [show bloomFill (i + 1) (b :: rest) = b * 256 ^ i + bloomFill i rest
            from rfl, hsplit.2]
        have hidx : i + 1 - 1 - i = 0 := by omega
        rw [List.get_eq_getElem]
        simp only [hpad, hidx]
        rw [List.getElem_cons_zero]

theorem bloomRev_bloomFill (w : List Nat) (hb : ∀ b ∈ w, b < 256) :
    bloomRev (bloomFill bloomWidth w) = padTo bloomWidth w := by
  have h := bloomByte_bloomFill bloomWidth w hb
  have hlen : (padTo bloomWidth w).length = 8 := padTo_length _ _
  have h7 := h 7 (by norm_num [bloomWidth])
  have h6 := h 6 (by norm_num [bloomWidth])
  have h5 := h 5 (by norm_num [bloomWidth])
  have h4 := h 4 (by norm_num [bloomWidth])
  have h3 := h 3 (by norm_num [bloomWidth])
  have h2 := h 2 (by norm_num [bloomWidth])
  have h1 := h 1 (by norm_num [bloomWidth])
  have h0 := h 0 (by norm_num [bloomWidth])
  rw [bloomRev, h7, h6, h5, h4, h3, h2, h1, h0]
  have : ∀ (l : List Nat) (hl : l.length = 8),
      [l.get ⟨0, by omega⟩, l.get ⟨1, by omega⟩, l.get ⟨2, by omega⟩,
        l.get ⟨3, by omega⟩, l.get ⟨4, by omega⟩, l.get ⟨5, by omega⟩,
        l.get ⟨6, by omega⟩, l.get ⟨7, by omega⟩] = l := by
    intro l hl
    rcases l with _ | ⟨a0, _ | ⟨a1, _ | ⟨a2, _ | ⟨a3, _ | ⟨a4, _ | ⟨a5,
      _ | ⟨a6, _ | ⟨a7, rest⟩⟩⟩⟩⟩⟩⟩⟩ <;> simp at hl ⊢
    exact hl
  have h8 := this (padTo bloomWidth w) hlen
  convert h8 using 2

theorem bloomFill_nil (k : Nat) : bloomFill k [] = 0 := by
  induction k with
  | zero => rfl
  | succ k ih => simp only [bloomFill] at ih ⊢; omega

theorem takeWhile_append_all {p : Nat → Bool} {l m : List Nat}
    (h : ∀ b ∈ l, p b) :
    (l ++ m).takeWhile p = l ++ m.takeWhile p := by
  induction l with
  | nil => simp
  | cons a r ih =>
    have ha : p a := h a (List.mem_cons_self a r)
    rw [List.cons_append, List.takeWhile_cons, if_pos ha,
      ih fun b hb => h b (List.mem_cons_of_mem a hb), List.cons_append]

theorem takeWhile_replicate_zero (c : Nat) :
    (List.replicate c 0).takeWhile (fun b => b ≠ 0) = [] := by
  cases c with
  | zero => rfl
  | succ c => simp [List.replicate, List.takeWhile_cons]

theorem takeWhile_padTo {w : List Nat} (h0 : ∀ b ∈ w, b ≠ 0) :
    (padTo bloomWidth w).takeWhile (fun b => b ≠ 0) = w.take bloomWidth := by
  rw [padTo, takeWhile_append_all (fun b hb => by
      simpa using h0 b (List.mem_of_mem_take hb)),
    takeWhile_replicate_zero, List.append_nil]

/-- Reconstruction inverts decomposition for NUL-free byte words. -/
theorem bloom_reconstruct_eq (w : List Nat)
    (hb : ∀ b ∈ w, 0 < b ∧ b < 256) :
    bloomReconstruct (bloomDecompose w) = w := by
  have hlt : ∀ b ∈ w, b < 256 := fun b h => (hb b h).2
  have h0 : ∀ b ∈ w, b ≠ 0 := fun b h => Nat.pos_iff_ne_zero.1 (hb b h).1
  rw [bloomReconstruct, bloomDecompose]
  simp only
  rw [bloomRev_bloomFill w hlt, takeWhile_padTo h0]
  by_cases hlen : bloomWidth < w.length
  · rw [if_pos hlen]
    simp [List.take_append_drop]
  · rw [if_neg hlen]
    simp only [Option.getD_none, List.append_nil]
    exact List.take_of_length_le (Nat.le_of_not_lt hlen)

theorem wordCmp_take_lt {k : Nat} {x y : List Nat}
    (h : wordCmp (x.take k) (y.take k) = .lt) : wordCmp x y = .lt := by
  induction k generalizing x y with
  | zero => simp [wordCmp] at h
  | succ k ih =>
    cases x with
    | nil =>
      cases y with
      | nil => simp [wordCmp] at h
      | cons b r => simp [wordCmp]
    | cons a l =>
      cases y with
      | nil => simp [wordCmp] at h
      | cons b r =>
        simp only [List.take_succ_cons, wordCmp] at h ⊢
        rcases Nat.lt_trichotomy a b with hab | hab | hab
        · simp [hab]
        · subst hab
          simp only [Nat.lt_irrefl, if_false] at h ⊢
          exact ih h
        · simp [hab, Nat.lt_asymm hab] at h

theorem wordCmp_self_append_lt {t y : List Nat} (hy : y ≠ []) :
    wordCmp t (t ++ y) = .lt := by
  induction t with
  | nil =>
    cases y with
    | nil => exact absurd rfl hy
    | cons b r => simp [wordCmp]
  | cons a l ih => simp [wordCmp, ih]

theorem wordCmp_append_cancel (t x y : List Nat) :
    wordCmp (t ++ x) (t ++ y) = wordCmp x y := by
  induction t with
  | nil => rfl
  | cons a l ih => simp [wordCmp, ih]

theorem bloomFill_cmp (k : Nat) (w1 w2 : List Nat)
    (hb1 : ∀ b ∈ w1, 0 < b ∧ b < 256) (hb2 : ∀ b ∈ w2, 0 < b ∧ b < 256) :
    (bloomFill k w1 < bloomFill k w2 ↔
      wordCmp (w1.take k) (w2.take k) = .lt) ∧
    (bloomFill k w1 = bloomFill k w2 ↔ w1.take k = w2.take k) := by
  induction k generalizing w1 w2 with
  | zero => simp [bloomFill, wordCmp]
  | succ k ih =>
    cases w1 with
    | nil =>
      cases w2 with
      | nil => simp [bloomFill_nil, wordCmp]
      | cons b r =>
        have hbpos : 0 < b := (hb2 b (List.mem_cons_self b r)).1
        have hfr := bloomFill_nil (k + 1)
        have hlow : 256 ^ k ≤ bloomFill (k + 1) (b :: r) := by
          simp only [bloomFill]
          have : 1 * 256 ^ k ≤ b * 256 ^ k :=
            Nat.mul_le_mul_right _ hbpos
          omega
        have hpow : 0 < (256 : Nat) ^ k := Nat.pos_pow_of_pos k (by norm_num)
        constructor
        · simp only [hfr, List.take_nil, List.take_succ_cons, wordCmp]
          constructor
          · intro _; trivial
          · intro _; omega
        · simp only [hfr, List.take_nil, List.take_succ_cons]
          constructor
          · intro h; omega
          · intro h; exact absurd h (by simp)
    | cons a l =>
      cases w2 with
      | nil =>
        have hapos : 0 < a := (hb1 a (List.mem_cons_self a l)).1
        have hfr := bloomFill_nil (k + 1)
        have hlow : 256 ^ k ≤ bloomFill (k + 1) (a :: l) := by
          simp only [bloomFill]
          have : 1 * 256 ^ k ≤ a * 256 ^ k :=
            Nat.mul_le_mul_right _ hapos
          omega
        have hpow : 0 < (256 : Nat) ^ k := Nat.pos_pow_of_pos k (by norm_num)
        constructor
        · simp only [hfr, List.take_nil, List.take_succ_cons, wordCmp]
          constructor
          · intro h; omega
          · intro h; exact absurd h (by simp)
        · simp only [hfr, List.take_nil, List.take_succ_cons]
          constructor
          · intro h; omega
          · intro h; exact absurd h (by simp)
      | cons b r =>
        have ha : 0 < a ∧ a < 256 := hb1 a (List.mem_cons_self a l)
        have hbb : 0 < b ∧ b < 256 := hb2 b (List.mem_cons_self b r)
        have hl' : ∀ x ∈ l, 0 < x ∧ x < 256 :=
          fun x hx => hb1 x (List.mem_cons_of_mem a hx)
        have hr' : ∀ x ∈ r, 0 < x ∧ x < 256 :=
          fun x hx => hb2 x (List.mem_cons_of_mem b hx)
        have hfl := bloomFill_lt k l (fun x hx => (hl' x hx).2)
        have hfr := bloomFill_lt k r (fun x hx => (hr' x hx).2)
        have ihk := ih l r hl' hr'
        simp only [bloomFill, List.take_succ_cons]
        rcases Nat.lt_trichotomy a b with hab | hab | hab
        · have hlt : a * 256 ^ k + bloomFill k l < b * 256 ^ k + bloomFill k r := by
            calc a * 256 ^ k + bloomFill k l < a * 256 ^ k + 256 ^ k := by omega
              _ = (a + 1) * 256 ^ k := by ring
              _ ≤ b * 256 ^ k := Nat.mul_le_mul_right _ (by omega)
              _ ≤ b * 256 ^ k + bloomFill k r := Nat.le_add_right _ _
          constructor
          · simp only [wordCmp, hab, if_pos]
            exact ⟨fun _ => trivial, fun _ => hlt⟩
          · constructor
            · intro h; omega
            · intro h
              have : a = b := by
                have := List.cons.injEq a (l.take k) b (r.take k) ▸ h
                exact (List.cons.inj h).1
              omega
        · subst hab
          have hcan : (a * 256 ^ k + bloomFill k l < a * 256 ^ k + bloomFill k r) ↔
              bloomFill k l < bloomFill k r := by omega
          have hcan2 : (a * 256 ^ k + bloomFill k l = a * 256 ^ k + bloomFill k r) ↔
              bloomFill k l = bloomFill k r := by omega
          constructor
          · rw [hcan, ihk.1]
            simp [wordCmp]
          · rw [hcan2, ihk.2]
            simp
        · have hlt : b * 256 ^ k + bloomFill k r < a * 256 ^ k + bloomFill k l := by
            calc b * 256 ^ k + bloomFill k r < b * 256 ^ k + 256 ^ k := by omega
              _ = (b + 1) * 256 ^ k := by ring
              _ ≤ a * 256 ^ k := Nat.mul_le_mul_right _ (by omega)
              _ ≤ a * 256 ^ k + bloomFill k l := Nat.le_add_right _ _
          constructor
          · constructor
            · intro h; omega
            · intro h
              simp only [wordCmp] at h
              rw [if_neg (Nat.lt_asymm hab), if_pos hab] at h
              exact absurd h (by simp)
          · constructor
            · intro h; omega
            · intro h
              have : a = b := (List.cons.inj h).1
              omega

theorem wordCmp_take_self_lt {k : Nat} {y : List Nat} (h : k < y.length) :
    wordCmp (y.take k) y = .lt := by
  have hne : y.drop k ≠ [] := by
    intro hcon
    have := congrArg List.length hcon
    simp only [List.length_drop, List.length_nil] at this
    omega
  have hself := wordCmp_self_append_lt (t := y.take k) hne
  rwa [List.take_append_drop] at hself

theorem bloom_cmp_eq (w1 w2 : List Nat)
    (hb1 : ∀ b ∈ w1, 0 < b ∧ b < 256) (hb2 : ∀ b ∈ w2, 0 < b ∧ b < 256) :
    bloomCmp (bloomDecompose w1) (bloomDecompose w2) = wordCmp w1 w2 := by
  have hcmp := bloomFill_cmp bloomWidth w1 w2 hb1 hb2
  have hcmp' := bloomFill_cmp bloomWidth w2 w1 hb2 hb1
  by_cases heq : bloomFill bloomWidth w1 = bloomFill bloomWidth w2
  · have ht : w1.take bloomWidth = w2.take bloomWidth := hcmp.2.mp heq
    by_cases h1 : bloomWidth < w1.length <;> by_cases h2 : bloomWidth < w2.length
    · have hx1 : bloomDecompose w1 =
          ⟨bloomFill bloomWidth w1, some (w1.drop bloomWidth)⟩ := by
        rw [bloomDecompose, if_pos h1]
      have hx2 : bloomDecompose w2 =
          ⟨bloomFill bloomWidth w2, some (w2.drop bloomWidth)⟩ := by
        rw [bloomDecompose, if_pos h2]
      rw [hx1, hx2, bloomCmp]
      simp only [heq]
      rw [if_neg (by simp)]
      have hsplit : wordCmp w1 w2 =
          wordCmp (w1.drop bloomWidth) (w2.drop bloomWidth) := by
        conv_lhs => rw [← List.take_append_drop bloomWidth w1,
          ← List.take_append_drop bloomWidth w2]
        rw [ht, wordCmp_append_cancel]
      rw [hsplit]
    · have hx1 : bloomDecompose w1 =
          ⟨bloomFill bloomWidth w1, some (w1.drop bloomWidth)⟩ := by
        rw [bloomDecompose, if_pos h1]
      have hx2 : bloomDecompose w2 = ⟨bloomFill bloomWidth w2, none⟩ := by
        rw [bloomDecompose, if_neg h2]
      rw [hx1, hx2, bloomCmp]
      simp only [heq]
      rw [if_neg (by simp)]
      have hw2 : w2 = w1.take bloomWidth := by
        rw [ht]
        exact (List.take_of_length_le (Nat.le_of_not_lt h2)).symm
      have hlt : wordCmp w2 w1 = .lt := by
        rw [hw2]
        exact wordCmp_take_self_lt h1
      rw [wordCmp_gt_iff.2 hlt]
    · have hx1 : bloomDecompose w1 = ⟨bloomFill bloomWidth w1, none⟩ := by
        rw [bloomDecompose, if_neg h1]
      have hx2 : bloomDecompose w2 =
          ⟨bloomFill bloomWidth w2, some (w2.drop bloomWidth)⟩ := by
        rw [bloomDecompose, if_pos h2]
      rw [hx1, hx2, bloomCmp]
      simp only [heq]
      rw [if_neg (by simp)]
      have hw1 : w1 = w2.take bloomWidth := by
        rw [← ht]
        exact (List.take_of_length_le (Nat.le_of_not_lt h1)).symm
      have hlt : wordCmp w1 w2 = .lt := by
        rw [hw1]
        exact wordCmp_take_self_lt h2
      rw [hlt]
    · have hx1 : bloomDecompose w1 = ⟨bloomFill bloomWidth w1, none⟩ := by
        rw [bloomDecompose, if_neg h1]
      have hx2 : bloomDecompose w2 = ⟨bloomFill bloomWidth w2, none⟩ := by
        rw [bloomDecompose, if_neg h2]
      rw [hx1, hx2, bloomCmp]
      simp only [heq]
      rw [if_neg (by simp)]
      have hw : w1 = w2 := by
        rw [← List.take_of_length_le (Nat.le_of_not_lt h1),
          ← List.take_of_length_le (Nat.le_of_not_lt h2), ht]
      rw [hw, wordCmp_refl]
  · rw [bloomCmp, if_pos (by
      show bloomFill bloomWidth w1 ≠ bloomFill bloomWidth w2
      simpa [bloomDecompose] using heq)]
    rcases Nat.lt_or_ge (bloomFill bloomWidth w1) (bloomFill bloomWidth w2)
      with hlt | hge
    · have hnotgt : ¬ (bloomDecompose w1).bloom > (bloomDecompose w2).bloom := by
        simp only [bloomDecompose]
        omega
      rw [if_neg hnotgt]
      exact (wordCmp_take_lt (hcmp.1.mp hlt)).symm
    · have hlt2 : bloomFill bloomWidth w2 < bloomFill bloomWidth w1 := by
        rcases Nat.lt_or_ge (bloomFill bloomWidth w2) (bloomFill bloomWidth w1)
          with h | h
        · exact h
        · exact absurd (Nat.le_antisymm h hge) heq
      have hgt : (bloomDecompose w1).bloom > (bloomDecompose w2).bloom := by
        simp only [bloomDecompose]
        exact hlt2
      rw [if_pos hgt]
      exact (wordCmp_gt_iff.2 (wordCmp_take_lt (hcmp'.1.mp hlt2))).symm

/-- C10. Bloom round-trip and order (wbloom.hpp lines 78-143): for
nonempty words of nonzero bytes, `reconstruct (decompose w) = w`, and the
Bloom comparison of two decompositions (numeric comparison of the packed
8-byte big-endian parts, then suffix comparison with no-suffix first)
agrees with lexicographic unsigned-byte comparison of the words, in
particular deciding equality identically. -/
theorem bloom_roundtrip_order (w1 w2 : List Nat)
    (hne1 : w1 ≠ []) (hne2 : w2 ≠ [])
    (hb1 : ∀ b ∈ w1, 0 < b ∧ b < 256) (hb2 : ∀ b ∈ w2, 0 < b ∧ b < 256) :
    bloomReconstruct (bloomDecompose w1) = w1 ∧
    bloomReconstruct (bloomDecompose w2) = w2 ∧
    bloomCmp (bloomDecompose w1) (bloomDecompose w2) = wordCmp w1 w2 ∧
    (bloomCmp (bloomDecompose w1) (bloomDecompose w2) = .eq ↔ w1 = w2) := by
  refine ⟨bloom_reconstruct_eq w1 hb1, bloom_reconstruct_eq w2 hb2,
    bloom_cmp_eq w1 w2 hb1 hb2, ?_⟩
  rw [bloom_cmp_eq w1 w2 hb1 hb2]
  exact wordCmp_eq_iff

/-- C10 witness: two 10-byte words sharing their first 9 bytes, so the
comparison is decided in the pooled suffix; the round trip and the order
both behave as proved. -/
theorem bloom_roundtrip_order_witness :
    ([97, 98, 99, 100, 101, 102, 103, 104, 105, 120] : List Nat) ≠ [] ∧
    bloomReconstruct (bloomDecompose
      [97, 98, 99, 100, 101, 102, 103, 104, 105, 120]) =
      [97, 98, 99, 100, 101, 102, 103, 104, 105, 120] ∧
    bloomCmp (bloomDecompose [97, 98, 99, 100, 101, 102, 103, 104, 105, 120])
      (bloomDecompose [97, 98, 99, 100, 101, 102, 103, 104, 105, 121]) =
      wordCmp [97, 98, 99, 100, 101, 102, 103, 104, 105, 120]
        [97, 98, 99, 100, 101, 102, 103, 104, 105, 121] := by
  have h := bloom_roundtrip_order
    [97, 98, 99, 100, 101, 102, 103, 104, 105, 120]
    [97, 98, 99, 100, 101, 102, 103, 104, 105, 121]
    (by decide) (by decide) (by decide) (by decide)
  exact ⟨by decide, h.1, h.2.2.1⟩

/-! ### Sort-based dedup pool (wsortdedup.cpp)

The working memory is modelled as a byte store `Nat → Nat` addressed
relative to `vmaddr` (fresh anonymous pages read as 0); the string pool
grows down from `vmsize`. `SortDedupItem` is 24 bytes on x86-64
(`char* pool; unsigned long bloom; fileoff_t occur`). -/

/-- One `SortDedupItem` (wsortdedup.cpp lines 39-76): pool pointer
(`none` = nullptr, `some p` = offset `p` from `vmaddr`), bloom prefix,
first-occurrence offset. -/
structure SDItem where
  pool : Option Nat
  bloom : Nat
  occur : Nat
  deriving Repr, DecidableEq

def sortItemSize : Nat := 24

def memWrite (mem : Nat → Nat) (p v : Nat) : Nat → Nat :=
  fun a => if a = p then v else mem a

def memWriteBytes : (Nat → Nat) → Nat → List Nat → (Nat → Nat)
  | mem, _, [] => mem
  | mem, p, b :: rest => memWriteBytes (memWrite mem p b) (p + 1) rest

/-- Read a NUL-terminated C string from the byte store, with a fuel bound
standing in for the unbounded pointer walk of `strcmp`/`operator<<`. -/
def readCStr (mem : Nat → Nat) : Nat → Nat → List Nat
  | 0, _ => []
  | fuel + 1, p => if mem p = 0 then [] else mem p :: readCStr mem fuel (p + 1)

/-- `SortDedupItem::operator-` (wsortdedup.cpp lines 53-65): bloom parts
numerically, then pool nullity (null first), then `strcmp` of the pooled
C strings. -/
def sdCmp (mem : Nat → Nat) (fuel : Nat) (x y : SDItem) : Ordering :=
  if x.bloom ≠ y.bloom then (if x.bloom > y.bloom then .gt else .lt)
  else
    match x.pool, y.pool with
    | none, none => .eq
    | none, some _ => .lt
    | some _, none => .gt
    | some p, some q => wordCmp (readCStr mem fuel p) (readCStr mem fuel q)

/-- State of a `SortDedup` pool over the working memory region. -/
structure SortPool where
  vmsize : Nat
  poolsize : Nat
  items : List SDItem
  mem : Nat → Nat

/-- `SortDedup::insert` (wsortdedup.cpp lines 92-125): bloom the first 8
bytes; if a suffix must be pooled, allocate `word.len - 8 + 1` bytes at
the descending pool end, `memcpy` the `allocpool - 1` suffix bytes, and
write the NUL terminator at `pool[allocpool]` — one byte past the
allocation, as the source does. -/
def SortPool.insert (sp : SortPool) (word : List Nat) (offset : Nat) :
    Bool × SortPool :=
  if word.length = 0 then (false, sp)
  else
    if ((if 8 < word.length then word.length - 8 + 1 else 0) + sp.poolsize)
        + (sp.items.length + 1) * sortItemSize > sp.vmsize then (false, sp)
    else if 8 < word.length then
      (true,
        { sp with
          poolsize := sp.poolsize + (word.length - 8 + 1),
          mem := memWrite
            (memWriteBytes sp.mem
              (sp.vmsize - (sp.poolsize + (word.length - 8 + 1)))
              (word.drop 8))
            (sp.vmsize - (sp.poolsize + (word.length - 8 + 1))
              + (word.length - 8 + 1)) 0,
          items := sp.items ++
            [⟨some (sp.vmsize - (sp.poolsize + (word.length - 8 + 1))),
              bloomFill 8 word, offset⟩] })
    else
      (true, { sp with items := sp.items ++ [⟨none, bloomFill 8 word, offset⟩] })

/-- Insertion into a sorted run, modelling the effect of `std::sort`
with `SortDedupItem::operator<` (equal elements keep arrival order,
which is immaterial to the output). -/
def sdSortInsert (mem : Nat → Nat) (fuel : Nat) (x : SDItem) :
    List SDItem → List SDItem
  | [] => [x]
  | y :: rest =>
    if sdCmp mem fuel x y = .lt then x :: y :: rest
    else y :: sdSortInsert mem fuel x rest

def sdSort (mem : Nat → Nat) (fuel : Nat) : List SDItem → List SDItem
  | [] => []
  | x :: rest => sdSortInsert mem fuel x (sdSort mem fuel rest)

/-- The `writeitem` lambda of `SortDedup::pour` (wsortdedup.cpp lines
133-159): rebuild the word from `bloomrev` (printed as a C string) plus
the pooled suffix; a run of length one becomes a singleton carrying the
item's occur, a longer run becomes a repeated record. -/
def sdWriteItem (mem : Nat → Nat) (fuel : Nat) (x : SDItem)
    (repeatedRun : Bool) : ProfileItem :=
  if repeatedRun then
    ProfileItem.repeatedOf ((bloomRev x.bloom).takeWhile (fun b => b ≠ 0) ++
      (match x.pool with | none => [] | some p => readCStr mem fuel p))
  else
    ProfileItem.singleOf ((bloomRev x.bloom).takeWhile (fun b => b ≠ 0) ++
      (match x.pool with | none => [] | some p => readCStr mem fuel p))
      x.occur

/-- The duplicate-coalescing scan of `SortDedup::pour` (wsortdedup.cpp
lines 165-174): walk the sorted items, tracking the first item `cur` of
the current equal run and whether the run has more than one element. -/
def pourScanGo (mem : Nat → Nat) (fuel : Nat) (cur : SDItem)
    (repeatedRun : Bool) : List SDItem → List ProfileItem
  | [] => [sdWriteItem mem fuel cur repeatedRun]
  | y :: rest =>
    if sdCmp mem fuel cur y = .eq then pourScanGo mem fuel cur true rest
    else sdWriteItem mem fuel cur repeatedRun :: pourScanGo mem fuel y false rest

/-- `SortDedup::pour`: sort in place, then scan coalescing equal runs. -/
def SortPool.pour (sp : SortPool) : List ProfileItem :=
  match sdSort sp.mem (sp.vmsize + 1) sp.items with
  | [] => []
  | x :: rest => pourScanGo sp.mem (sp.vmsize + 1) x false rest

/-- C4, evaluated at the failing input: inserting the two 10-byte words
`abcdefghiX` (offset 0) and `abcdefghiY` (offset 1) into a fresh 128-byte
sort pool succeeds, but the terminator of each pooled suffix is written
one byte past its allocation (`pool[allocpool]` instead of
`pool[allocpool - 1]`), so the second insert zeroes the first suffix's
leading byte. Pour then emits the truncated word `abcdefgh` instead of
`abcdefghiX`: no record carries the first inserted word, contradicting
one-record-per-distinct-inserted-word. -/
theorem sortdedup_pour_bug :
    (SortPool.insert ⟨128, 0, [], fun _ => 0⟩
      [97, 98, 99, 100, 101, 102, 103, 104, 105, 88] 0).1 = true ∧
    (SortPool.insert
      (SortPool.insert ⟨128, 0, [], fun _ => 0⟩
        [97, 98, 99, 100, 101, 102, 103, 104, 105, 88] 0).2
      [97, 98, 99, 100, 101, 102, 103, 104, 105, 89] 1).1 = true ∧
    SortPool.pour
      (SortPool.insert
        (SortPool.insert ⟨128, 0, [], fun _ => 0⟩
          [97, 98, 99, 100, 101, 102, 103, 104, 105, 88] 0).2
        [97, 98, 99, 100, 101, 102, 103, 104, 105, 89] 1).2 =
      [ProfileItem.singleOf [97, 98, 99, 100, 101, 102, 103, 104] 0,
        ProfileItem.singleOf [97, 98, 99, 100, 101, 102, 103, 104, 105, 89] 1] ∧
    ∀ i ∈ SortPool.pour
        (SortPool.insert
          (SortPool.insert ⟨128, 0, [], fun _ => 0⟩
            [97, 98, 99, 100, 101, 102, 103, 104, 105, 88] 0).2
          [97, 98, 99, 100, 101, 102, 103, 104, 105, 89] 1).2,
      i.word ≠ [97, 98, 99, 100, 101, 102, 103, 104, 105, 88] := by
  decide

/-! ### Merge stage (wmerge.cpp) -/

/-- A merge plan `{left, right, out}` (wmerge.cpp lines 39-52). -/
structure WMergePlan where
  left : Nat
  right : Nat
  out : Nat
  deriving Repr, DecidableEq

/-- A wmerge WAL record: `merge{left,right,out}` or the payload-free
`end` marker (wmerge.cpp lines 60-70 and 203-204, 212). -/
inductive WMergeRec where
  | merge (left right out : Nat)
  | stageEnd
  deriving Repr, DecidableEq

/-- Plan-generation loop of wmerge (wmerge.cpp lines 80-130): a queue of
node ids biased by +1 with 0 as the layer separator; pairs are dequeued
and merged until a layer holds a single node. `fuel` bounds the
iterations of the source's `while(true)`; `none` models non-completion
within the bound (or the impossible empty-queue pop). -/
def planLoop : Nat → List Nat → Nat → Nat → List WMergePlan →
    Option (List WMergePlan)
  | 0, _, _, _, _ => none
  | _ + 1, [], _, _, _ => none
  | fuel + 1, left :: nodes1, put, layerNodes, plans =>
    if left = 0 then
      if layerNodes = 1 then some plans
      else planLoop fuel (nodes1 ++ [0]) put 0 plans
    else
      match nodes1 with
      | [] => none
      | right :: nodes2 =>
        if right = 0 then
          if layerNodes + 1 = 1 then some plans
          else planLoop fuel (nodes2 ++ [left, 0]) put 0 plans
        else
          planLoop fuel (nodes2 ++ [put + 1]) (put + 1) (layerNodes + 2)
            (plans ++ [⟨left - 1, right - 1, put⟩])

/-- The generated plans for a leaf count (wmerge.cpp lines 88-93: queue
seeded with ids 1..leaves then the separator, `put` starting at
`leaves`). -/
def wmergePlans (leaves fuel : Nat) : Option (List WMergePlan) :=
  planLoop fuel ((List.range leaves).map (· + 1) ++ [0]) leaves 0 []

/-- The working directory's profile files: id to record list. -/
abbrev FileSys : Type := List (Nat × List ProfileItem)

def fsGet (fs : FileSys) (id : Nat) : List ProfileItem :=
  match fs.find? (fun e => e.1 = id) with
  | some e => e.2
  | none => []

def fsHas (fs : FileSys) (id : Nat) : Bool :=
  (fs.find? (fun e => e.1 = id)).isSome

def fsRemove (fs : FileSys) (id : Nat) : FileSys :=
  fs.filter (fun e => e.1 ≠ id)

/-- Writing to a profile output: the underlying `AppendFileBase` opens
with `O_APPEND | O_CREAT` (wiobase.cpp line 95), so pushed records land
after any content the file already holds. -/
def fsAppend (fs : FileSys) (id : Nat) (recs : List ProfileItem) : FileSys :=
  fsRemove fs id ++ [(id, fsGet fs id ++ recs)]

/-- Live merge loop of wmerge (wmerge.cpp lines 172-209): for each
remaining plan, merge the two input profiles into the output profile
(appending, since the output file is opened in append mode and never
removed first), log the merge record, and garbage-collect the inputs —
unconditionally: this `wmerge` has no GC flag. Returns the file system
and the appended log records. -/
def wmergeExec : List WMergePlan → FileSys → FileSys × List WMergeRec
  | [], fs => (fs, [])
  | p :: rest, fs =>
    let fs1 := fsAppend fs p.out (mergePass (fsGet fs p.left) (fsGet fs p.right))
    let fs2 := fsRemove (fsRemove fs1 p.left) p.right
    let res := wmergeExec rest fs2
    (res.1, WMergeRec.merge p.left p.right p.out :: res.2)

/-- Replay loop of wmerge (wmerge.cpp lines 135-165): consume log
records, validating each merge record against the corresponding plan and
garbage-collecting its inputs; a `stageEnd` record requires the cursor to
have exhausted the plans and short-circuits the stage. After the log is
exhausted the remaining plans are executed and the payload-free
`stageEnd` record is appended (lines 211-213). `none` is `logCorrupt`. -/
def wmergeReplay (plans : List WMergePlan) : Nat → List WMergeRec → FileSys →
    Option (Nat × FileSys × List WMergeRec)
  | cursor, [], fs =>
    match plans.getLast? with
    | none => none
    | some lastPlan =>
      let res := wmergeExec (plans.drop cursor) fs
      some (lastPlan.out, res.1, res.2 ++ [WMergeRec.stageEnd])
  | cursor, WMergeRec.stageEnd :: _, fs =>
    match plans.getLast? with
    | none => none
    | some lastPlan =>
      if cursor = plans.length then some (lastPlan.out, fs, []) else none
  | cursor, WMergeRec.merge left right out :: restLog, fs =>
    match plans.get? cursor with
    | none => none
    | some p =>
      if p.left = left ∧ p.right = right ∧ p.out = out then
        wmergeReplay plans (cursor + 1) restLog
          (fsRemove (fsRemove fs left) right)
      else none

/-- The `wmerge` stage (wmerge.cpp lines 72-214): 0 leaves is log
corruption; 1 leaf returns 0 immediately, writing nothing; otherwise
generate plans, replay the log, and execute the remainder. -/
def wmergeRun (leaves fuel : Nat) (log : List WMergeRec) (fs : FileSys) :
    Option (Nat × FileSys × List WMergeRec) :=
  if leaves = 0 then none
  else if leaves = 1 then some (0, fs, [])
  else
    match wmergePlans leaves fuel with
    | none => none
    | some plans => wmergeReplay plans 0 log fs

theorem wmergeReplay_end {plans : List WMergePlan} {log : List WMergeRec}
    {cursor : Nat} {fs : FileSys} {root : Nat} {fs' : FileSys}
    {recs : List WMergeRec}
    (hmem : WMergeRec.stageEnd ∉ log)
    (hrun : wmergeReplay plans cursor log fs = some (root, fs', recs)) :
    recs.getLast? = some WMergeRec.stageEnd ∧
    plans.getLast?.map (·.out) = some root := by
  induction log generalizing cursor fs with
  | nil =>
    rw [wmergeReplay] at hrun
    cases hlast : plans.getLast? with
    | none => rw [hlast] at hrun; exact absurd hrun (by simp)
    | some lastPlan =>
      rw [hlast] at hrun
      simp only [Option.some.injEq, Prod.mk.injEq] at hrun
      rcases hrun with ⟨hroot, _, hrecs⟩
      constructor
      · rw [← hrecs, List.getLast?_concat]
      · simp [hroot]
  | cons rec restLog ih =>
    cases rec with
    | stageEnd => exact absurd (List.mem_cons_self _ _) hmem
    | merge left right out =>
      rw [wmergeReplay] at hrun
      split at hrun
      · exact absurd hrun (by simp)
      · split at hrun
        · exact ih (fun h => hmem (List.mem_cons_of_mem _ h)) hrun
        · exact absurd hrun (by simp)

/-- C6 amended (wmerge.cpp lines 72-214): when `wmerge` completes without
error with two or more leaves, performing at least the final step live
(the consumed log does not already contain a `wmerge.end` marker), the
last record it appends to the WAL is the `wmerge.end` record — which
carries no root-id payload — and it returns the `out` id of the last
generated plan; with exactly one leaf it returns 0 (that leaf's id)
immediately and appends no record at all. -/
theorem wmerge_end_amended (leaves fuel : Nat) (log : List WMergeRec)
    (fs : FileSys) (root : Nat) (fs' : FileSys) (recs : List WMergeRec)
    (hrun : wmergeRun leaves fuel log fs = some (root, fs', recs)) :
    (leaves = 1 → root = 0 ∧ fs' = fs ∧ recs = []) ∧
    (2 ≤ leaves → WMergeRec.stageEnd ∉ log →
      recs.getLast? = some WMergeRec.stageEnd ∧
      ∃ plans, wmergePlans leaves fuel = some plans ∧
        plans.getLast?.map (·.out) = some root) := by
  constructor
  · intro h1
    subst h1
    rw [wmergeRun, if_neg (by omega : ¬ (1 : Nat) = 0), if_pos rfl] at hrun
    simp only [Option.some.injEq, Prod.mk.injEq] at hrun
    exact ⟨hrun.1.symm, hrun.2.1.symm, hrun.2.2.symm⟩
  · intro hge hmem
    rw [wmergeRun, if_neg (by omega : ¬ leaves = 0),
      if_neg (by omega : ¬ leaves = 1)] at hrun
    cases hplans : wmergePlans leaves fuel with
    | none => rw [hplans] at hrun; exact absurd hrun (by simp)
    | some plans =>
      rw [hplans] at hrun
      have h := wmergeReplay_end hmem hrun
      exact ⟨h.1, plans, rfl, h.2⟩

/-- C6 counterexample: with a single leaf (whose profile file is id 0),
`wmerge` completes without error returning root 0, but appends no WAL
record at all — in particular no `wmerge.end` record carrying the root id
— contradicting the claim's "including the case leaves = 1". -/
theorem wmerge_end_leaves_one_no_record :
    wmergeRun 1 32 [] [(0, [ProfileItem.singleOf [97] 0])] =
      some (0, [(0, [ProfileItem.singleOf [97] 0])], []) ∧
    ∀ fs' recs, wmergeRun 1 32 [] [(0, [ProfileItem.singleOf [97] 0])] =
        some (0, fs', recs) → recs = [] := by
  constructor
  · rfl
  · intro fs' recs h
    simp only [wmergeRun] at h
    simp at h
    exact h.2

/-- C6 witness: the amended theorem applied to a fresh two-leaf run; it
appends `merge{0,1,2}` then the payload-free `wmerge.end`, and returns 2,
the out-id of the single plan. -/
theorem wmerge_end_amended_witness :
    wmergeRun 2 32 []
      [(0, [ProfileItem.repeatedOf [97]]), (1, [ProfileItem.singleOf [98] 5])] =
      some (2, [(2, [ProfileItem.repeatedOf [97], ProfileItem.singleOf [98] 5])],
        [WMergeRec.merge 0 1 2, WMergeRec.stageEnd]) ∧
    (2 ≤ 2 ∧ WMergeRec.stageEnd ∉ ([] : List WMergeRec)) ∧
    ([WMergeRec.merge 0 1 2, WMergeRec.stageEnd].getLast? =
        some WMergeRec.stageEnd ∧
      ∃ plans, wmergePlans 2 32 = some plans ∧
        plans.getLast?.map (·.out) = some 2) := by
  have hev : wmergeRun 2 32 []
      [(0, [ProfileItem.repeatedOf [97]]), (1, [ProfileItem.singleOf [98] 5])] =
      some (2, [(2, [ProfileItem.repeatedOf [97], ProfileItem.singleOf [98] 5])],
        [WMergeRec.merge 0 1 2, WMergeRec.stageEnd]) := by
    simp +decide [wmergeRun, wmergePlans, planLoop, wmergeReplay, wmergeExec,
      fsAppend, fsGet, fsRemove, mergePass, ProfileItem.repeatedOf,
      ProfileItem.singleOf, wordCmp]
  refine ⟨hev, ⟨Nat.le_refl 2, by simp⟩, ?_⟩
  exact (wmerge_end_amended 2 32 [] _ 2 _ _ hev).2 (Nat.le_refl 2) (by simp)

/-- Command-line options collected by `argparse`
(impl/wcli.hpp / wcli.cpp): `--disable-gc` is parsed into `disableGC`
(wcli.cpp lines 119-121). -/
structure ProgramOptions where
  run : Bool := true
  pagePinned : Bool := false
  profileOnly : Bool := false
  mergeOnly : Bool := false
  disableGC : Bool := false
  deriving Repr, DecidableEq

/-- The merge stage as invoked by `main` (main.cpp line 185):
`wmerge(config, leaves)` — the parsed `options.disableGC` is not
forwarded, and `wmerge` (wmerge.cpp) takes no GC flag, so the removals at
wmerge.cpp lines 157-159 and 206-208 happen unconditionally. -/
def mainRunWmerge (_opts : ProgramOptions) (leaves fuel : Nat)
    (log : List WMergeRec) (fs : FileSys) :
    Option (Nat × FileSys × List WMergeRec) :=
  wmergeRun leaves fuel log fs

/-- C8, evaluated at the failing input: `wdedup --disable-gc` on a
two-leaf working directory. The flag is parsed (`disableGC = true`), yet
after the merge both input profile files 0 and 1 have been deleted, and
the resulting state is identical to a run without the flag. -/
theorem disable_gc_not_honored :
    mainRunWmerge { disableGC := true } 2 32 []
      [(0, [ProfileItem.repeatedOf [97]]), (1, [ProfileItem.singleOf [98] 5])] =
      some (2, [(2, [ProfileItem.repeatedOf [97], ProfileItem.singleOf [98] 5])],
        [WMergeRec.merge 0 1 2, WMergeRec.stageEnd]) ∧
    (∀ root fs' recs,
      mainRunWmerge { disableGC := true } 2 32 []
        [(0, [ProfileItem.repeatedOf [97]]), (1, [ProfileItem.singleOf [98] 5])] =
        some (root, fs', recs) →
      fsHas fs' 0 = false ∧ fsHas fs' 1 = false) ∧
    mainRunWmerge { disableGC := true } 2 32 []
      [(0, [ProfileItem.repeatedOf [97]]), (1, [ProfileItem.singleOf [98] 5])] =
    mainRunWmerge { disableGC := false } 2 32 []
      [(0, [ProfileItem.repeatedOf [97]]), (1, [ProfileItem.singleOf [98] 5])] := by
  have hev : mainRunWmerge { disableGC := true } 2 32 []
      [(0, [ProfileItem.repeatedOf [97]]), (1, [ProfileItem.singleOf [98] 5])] =
      some (2, [(2, [ProfileItem.repeatedOf [97], ProfileItem.singleOf [98] 5])],
        [WMergeRec.merge 0 1 2, WMergeRec.stageEnd]) := by
    simp +decide [mainRunWmerge, wmergeRun, wmergePlans, planLoop, wmergeReplay,
      wmergeExec, fsAppend, fsGet, fsRemove, mergePass, ProfileItem.repeatedOf,
      ProfileItem.singleOf, wordCmp]
  refine ⟨hev, ?_, rfl⟩
  intro root fs' recs h
  rw [hev] at h
  simp only [Option.some.injEq, Prod.mk.injEq] at h
  rw [← h.2.1]
  constructor <;> rfl

/-- C1, evaluated at the failing input highlighted by the claim: a
two-leaf run interrupted between the merge pass's (closed, flushed)
writes to output profile 2 and the sync of the `wmerge.merge` WAL record.
The uninterrupted run leaves file 2 holding the merged records once; on
restart the log holds no merge record, the merge step re-executes, and —
because the output file is opened `O_APPEND` and never removed first —
the same records are appended a second time, so the final on-disk file
set differs from the uninterrupted run's (file 2 is doubled and no longer
sorted). -/
theorem wmerge_restart_not_idempotent :
    wmergeRun 2 32 []
      [(0, [ProfileItem.repeatedOf [97]]), (1, [ProfileItem.singleOf [98] 5])] =
      some (2, [(2, [ProfileItem.repeatedOf [97], ProfileItem.singleOf [98] 5])],
        [WMergeRec.merge 0 1 2, WMergeRec.stageEnd]) ∧
    fsAppend [(0, [ProfileItem.repeatedOf [97]]), (1, [ProfileItem.singleOf [98] 5])]
      2 (mergePass
        (fsGet [(0, [ProfileItem.repeatedOf [97]]),
          (1, [ProfileItem.singleOf [98] 5])] 0)
        (fsGet [(0, [ProfileItem.repeatedOf [97]]),
          (1, [ProfileItem.singleOf [98] 5])] 1)) =
      [(0, [ProfileItem.repeatedOf [97]]), (1, [ProfileItem.singleOf [98] 5]),
        (2, [ProfileItem.repeatedOf [97], ProfileItem.singleOf [98] 5])] ∧
    wmergeRun 2 32 []
      [(0, [ProfileItem.repeatedOf [97]]), (1, [ProfileItem.singleOf [98] 5]),
        (2, [ProfileItem.repeatedOf [97], ProfileItem.singleOf [98] 5])] =
      some (2, [(2, [ProfileItem.repeatedOf [97], ProfileItem.singleOf [98] 5,
        ProfileItem.repeatedOf [97], ProfileItem.singleOf [98] 5])],
        [WMergeRec.merge 0 1 2, WMergeRec.stageEnd]) ∧
    fsGet [(2, [ProfileItem.repeatedOf [97], ProfileItem.singleOf [98] 5,
        ProfileItem.repeatedOf [97], ProfileItem.singleOf [98] 5])] 2 ≠
      fsGet [(2, [ProfileItem.repeatedOf [97], ProfileItem.singleOf [98] 5])] 2 ∧
    ¬ sortedProfile (fsGet [(2, [ProfileItem.repeatedOf [97],
        ProfileItem.singleOf [98] 5, ProfileItem.repeatedOf [97],
        ProfileItem.singleOf [98] 5])] 2) := by
  refine ⟨?_, ?_, ?_, ?_, ?_⟩
  · simp +decide [wmergeRun, wmergePlans, planLoop, wmergeReplay, wmergeExec,
      fsAppend, fsGet, fsRemove, mergePass, ProfileItem.repeatedOf,
      ProfileItem.singleOf, wordCmp]
  · simp +decide [fsAppend, fsGet, fsRemove, mergePass, ProfileItem.repeatedOf,
      ProfileItem.singleOf, wordCmp]
  · simp +decide [wmergeRun, wmergePlans, planLoop, wmergeReplay, wmergeExec,
      fsAppend, fsGet, fsRemove, mergePass, ProfileItem.repeatedOf,
      ProfileItem.singleOf, wordCmp]
  · decide
  · decide

/-! ### Profiler stage (wprof.cpp) -/

/-- `isWhitespace` (wprof.cpp lines 45-47). -/
def isWhitespace (c : Nat) : Bool :=
  c = 32 || c = 9 || c = 10 || c = 13

/-- `OriginalFileReader::readString` (wprof.cpp lines 88-141) together
with `eliminateWhitespace` (lines 70-86), at the level of the byte
stream: skip whitespace; at EOF return nothing (with the stream position
at end of input); otherwise return the maximal run of non-whitespace
bytes and its starting offset. Modelled from the spec for the parts
resting on `buffer_ptr`/`buffer_skip` (whose implementation is not in
src/): the spec's `tell()` is the current absolute position, and the
deferred `prevskip` consumption is folded into the returned position. -/
def readToken (input : List Nat) (pos : Nat) :
    Option (List Nat × Nat) × Nat :=
  if ((input.drop (pos + ((input.drop pos).takeWhile isWhitespace).length)).takeWhile
      (fun c => !isWhitespace c)) = [] then
    (none, pos + ((input.drop pos).takeWhile isWhitespace).length)
  else
    (some ((input.drop (pos + ((input.drop pos).takeWhile isWhitespace).length)).takeWhile
        (fun c => !isWhitespace c),
      pos + ((input.drop pos).takeWhile isWhitespace).length),
    pos + ((input.drop pos).takeWhile isWhitespace).length +
      ((input.drop (pos + ((input.drop pos).takeWhile isWhitespace).length)).takeWhile
        (fun c => !isWhitespace c)).length)

/-- Size of one `TreeDedupItem`. Modelled from the spec: the header
`impl/wtreededup.hpp` defining the item struct (an RB-tree node embedding
a Bloom and the occurrence) is not in src/; the concrete byte size only
gates arena capacity. -/
def treeItemSize : Nat := 56

/-- State of a `TreeDedup` pool: arena byte accounting plus the tree
contents. Modelled from the spec where the missing `wtreededup.hpp` /
BSD `RB_*` macros are concerned: the red-black tree keyed by the Bloom
comparison behaves as a sorted map over NUL-free words (the Bloom order
agrees with lexicographic word order, see `bloom_cmp_eq`). Entries map a
word to its occurrence code (0 = repeated, `o + 1` = single occurrence at
offset `o`, wtreededup.cpp lines 74, 85). -/
structure TreePool where
  vmsize : Nat
  poolsize : Nat
  arraysize : Nat
  entries : List (List Nat × Nat)
  deriving Repr, DecidableEq

def treeEntriesInsert (w : List Nat) (code : Nat) :
    List (List Nat × Nat) → List (List Nat × Nat)
  | [] => [(w, code)]
  | e :: rest =>
    if wordCmp w e.1 = .lt then (w, code) :: e :: rest
    else e :: treeEntriesInsert w code rest

/-- `TreeDedup::insert` (wtreededup.cpp lines 59-96): reject the empty
word; on a hit mark the node repeated (`occur = 0`); on a miss allocate
via the arena (`MemoryManager::alloc`, wwmman.hpp lines 84-103: fails iff
`(allocpool + poolsize) + (arraysize + 1) * sizeof(item)` exceeds the
region) and store `occur = offset + 1` (wrapping as `fileoff_t`). -/
def TreePool.insert (tp : TreePool) (word : List Nat) (offset : Nat) :
    Bool × TreePool :=
  if word.length = 0 then (false, tp)
  else if (tp.entries.find? (fun e => e.1 = word)).isSome then
    (true,
      { tp with
        entries := tp.entries.map fun e =>
          if e.1 = word then (e.1, 0) else e })
  else
    if ((if 8 < word.length then word.length - 8 + 1 else 0) + tp.poolsize)
        + (tp.arraysize + 1) * treeItemSize > tp.vmsize then (false, tp)
    else
      (true,
        { tp with
          poolsize := tp.poolsize +
            (if 8 < word.length then word.length - 8 + 1 else 0),
          arraysize := tp.arraysize + 1,
          entries := treeEntriesInsert word ((offset + 1) % 2 ^ 64) tp.entries })

/-- `TreeDedup::pour` (wtreededup.cpp lines 98-111): in-order walk,
emitting repeated items for occurrence code 0 and singletons carrying
`code - 1` otherwise. -/
def TreePool.pour (tp : TreePool) : List ProfileItem :=
  tp.entries.map (fun e =>
    if e.2 = 0 then ProfileItem.repeatedOf e.1
    else ProfileItem.singleOf e.1 (e.2 - 1))

/-- A wprof WAL record (wprof.cpp lines 149-164). -/
inductive WProfRec where
  | segment (start endOff : Nat)
  | stageEnd
  deriving Repr, DecidableEq

/-- Replacing a profile file: wprof removes any preexisting file of the
segment's name before pouring (wprof.cpp line 261), so the new content
replaces the old. -/
def fsSet (fs : FileSys) (id : Nat) (recs : List ProfileItem) : FileSys :=
  fsRemove fs id ++ [(id, recs)]

/-- Inner token-reading loop of wprof (wprof.cpp lines 240-257): read
tokens and insert them until the pool is full (keeping the token and the
pre-read position as the resume point) or EOF. Returns the pool, the
milestone `prevoff`, the stream position, the leftover token with its
offset, and the EOF flag. Fuel bounds the loop; `none` is unreachable
with fuel exceeding the remaining input length. -/
def wprofInner (input : List Nat) : Nat → TreePool → Nat →
    Option (TreePool × Nat × Nat × Option (List Nat × Nat) × Bool)
  | 0, _, _ => none
  | fuel + 1, pool, pos =>
    match readToken input pos with
    | (none, pos') => some (pool, pos', pos', none, true)
    | (some (tok, woffset), pos') =>
      match TreePool.insert pool tok woffset with
      | (true, pool') => wprofInner input fuel pool' pos'
      | (false, _) => some (pool, pos, pos', some (tok, woffset), false)

/-- Outer fill-and-pour loop of wprof (wprof.cpp lines 224-272): while
not at EOF or a leftover token remains, build a fresh pool on the working
memory, place the leftover first (its failure is the fatal
insufficient-memory error, modelled `none`), run the inner loop, pour
into the profile file named by the segment counter, log
`wprof.segment{offset, prevoff - 1}` (u64 wraparound), and continue from
`prevoff`; at the end log `wprof.end`. -/
def wprofLoop (vmsize : Nat) (input : List Nat) :
    Nat → Nat → Nat → Nat → Option (List Nat × Nat) → Bool →
    List WProfRec → FileSys → Option (Nat × List WProfRec × FileSys)
  | 0, _, _, _, _, _, _, _ => none
  | fuel + 1, pos, offset, segments, leftover, iseof, log, files =>
    if iseof ∧ leftover = none then
      some (segments, log ++ [WProfRec.stageEnd], files)
    else
      match (match leftover with
        | none => some (⟨vmsize, 0, 0, []⟩ : TreePool)
        | some (tok, woffset) =>
          match TreePool.insert ⟨vmsize, 0, 0, []⟩ tok woffset with
          | (true, pool') => some pool'
          | (false, _) => none) with
      | none => none
      | some pool1 =>
        match wprofInner input (input.length + 1) pool1 pos with
        | none => none
        | some (pool2, prevoff, pos', leftover', iseof') =>
          wprofLoop vmsize input fuel pos' prevoff (segments + 1) leftover'
            iseof'
            (log ++ [WProfRec.segment offset ((prevoff + 2 ^ 64 - 1) % 2 ^ 64)])
            (fsSet files segments (TreePool.pour pool2))

/-- Log replay of wprof (wprof.cpp lines 174-197): each segment record
must start where the previous one ended; `wprof.end` short-circuits the
stage returning the accumulated count. -/
def wprofReplay : List WProfRec → Nat → Nat → Option (Bool × Nat × Nat)
  | [], offset, segments => some (false, offset, segments)
  | WProfRec.stageEnd :: _, offset, segments => some (true, offset, segments)
  | WProfRec.segment s e :: rest, offset, segments =>
    if s = offset then wprofReplay rest ((e + 1) % 2 ^ 64) (segments + 1)
    else none

/-- The `wprof` stage (wprof.cpp lines 166-273): replay the log; if the
stage already ended, return the count with no I/O; otherwise check the
input is large enough, seek to the resume offset, and run the
fill-and-pour loop. Returns the segment count, the records newly appended
to the WAL, and the profile files written. -/
def wprofRun (vmsize : Nat) (input : List Nat) (log : List WProfRec) :
    Option (Nat × List WProfRec × FileSys) :=
  match wprofReplay log 0 0 with
  | none => none
  | some (true, _, segments) => some (segments, [], [])
  | some (false, offset, segments) =>
    if input.length < offset then none
    else wprofLoop vmsize input (input.length + 2) offset offset segments
      none false [] []

theorem takeWhile_all {p : Nat → Bool} {l : List Nat}
    (h : ∀ b ∈ l, p b) : l.takeWhile p = l := by
  induction l with
  | nil => rfl
  | cons a r ih =>
    rw [List.takeWhile_cons, if_pos (h a (List.mem_cons_self a r)),
      ih fun b hb => h b (List.mem_cons_of_mem a hb)]

/-- C7 counterexample: `wprof` on the empty input starting from an empty
WAL emits one `wprof.segment` record (with `end = 0 - 1` wrapped to
`2^64 - 1`), creates profile file 0 (empty), and returns 1 — not zero
segment records, no file, and zero. -/
theorem wprof_empty_input_one_segment :
    wprofRun 1024 [] [] =
      some (1, [WProfRec.segment 0 (2 ^ 64 - 1), WProfRec.stageEnd],
        [(0, [])]) ∧
    (1 : Nat) ≠ 0 ∧
    WProfRec.segment 0 (2 ^ 64 - 1) ∈
      [WProfRec.segment 0 (2 ^ 64 - 1), WProfRec.stageEnd] ∧
    ([(0, ([] : List ProfileItem))] : FileSys) ≠ [] := by
  decide

theorem readToken_all_white {input : List Nat}
    (hws : ∀ b ∈ input, isWhitespace b = true) :
    readToken input 0 = (none, input.length) := by
  have htw : input.takeWhile isWhitespace = input := takeWhile_all hws
  rw [readToken]
  simp only [List.drop_zero, htw, List.drop_length, List.takeWhile_nil,
    Nat.zero_add]
  simp

/-- C7 amended (wprof.cpp lines 224-272): for every input that is empty
or consists solely of ASCII whitespace, `wprof` starting from an empty
WAL performs exactly one fill-and-pour iteration with an empty pool: it
emits exactly one `wprof.segment` record covering `{0, size - 1}` (the
end offset wrapping to `2^64 - 1` for the empty input), creates exactly
one profile file (id 0, empty), emits `wprof.end`, and returns one
segment. -/
theorem wprof_whitespace_amended (vmsize : Nat) (input : List Nat)
    (hws : ∀ b ∈ input, isWhitespace b = true) :
    wprofRun vmsize input [] =
      some (1, [WProfRec.segment 0 ((input.length + 2 ^ 64 - 1) % 2 ^ 64),
        WProfRec.stageEnd], [(0, [])]) := by
  have hinner : wprofInner input (input.length + 1) ⟨vmsize, 0, 0, []⟩ 0 =
      some (⟨vmsize, 0, 0, []⟩, input.length, input.length, none, true) := by
    rw [wprofInner, readToken_all_white hws]
  rw [wprofRun]
  simp only [wprofReplay]
  rw [if_neg (by omega)]
  rw [show input.length + 2 = (input.length + 1) + 1 from rfl, wprofLoop]
  rw [if_neg (by simp)]
  simp only [hinner]
  rw [show input.length + 1 = input.length + 1 from rfl, wprofLoop]
  rw [if_pos ⟨rfl, rfl⟩]
  rfl

/-- C7 amended-theorem witness at the one-byte input `" "`. -/
theorem wprof_whitespace_amended_witness :
    (∀ b ∈ [32], isWhitespace b = true) ∧
    wprofRun 1024 [32] [] =
      some (1, [WProfRec.segment 0 ((List.length [32] + 2 ^ 64 - 1) % 2 ^ 64),
        WProfRec.stageEnd], [(0, [])]) ∧
    wprofRun 1024 [32] [] =
      some (1, [WProfRec.segment 0 0, WProfRec.stageEnd], [(0, [])]) :=
  ⟨by decide, wprof_whitespace_amended 1024 [32] (by decide), by decide⟩

end Wdedup
